import Mathlib

/-
Verification development for the font/glyph cache module (src/gfx/text.rs)
of the spaceship-game repository.

The Rust module is embedded shallowly:
 - the `FontCache` state (paths, path-to-index map, hash map, font metadata
   table, lazy per-entry derived data) becomes a Lean structure over lists
   and association lists (Rust HashMap iteration order is irrelevant for
   the verified claims; where the code iterates a map we iterate the
   association list);
 - `store_raw_data` / `load_raw_data` / `load_font_file` /
   `load_multiple_font_files` become state-passing functions; a Rust panic
   (a failed `unwrap` or out-of-bounds index) is an explicit `panic`
   outcome carrying no successor state, and a `?`-propagated error is an
   `err` outcome;
 - external crates are modelled at their interface boundary: skrifa parse
   results appear as pre-parsed per-face records, the etagere atlas
   allocator as a shelf allocator whose `get` returns the rectangle of a
   prior `allocate`, and the zeno rasterizer as an injected function from
   (face, glyph, size, coords) to (placement, coverage buffer);
 - machine integers index lists and count, so they are Nat / Int; the
   f32 pixel-per-em value is a rational (only its floor is ever used);
 - `to_ascii_lowercase` is character-wise ASCII lowering, modelled exactly
   by `lowStr`. The query side of `search_fonts` uses the standard
   library Unicode `str::to_lowercase`, which is external to the module;
   like the rasterizer it is injected at its interface boundary, as a
   `uniLower : String → String` parameter of the search definitions, and
   concrete search evaluations assume only its fixed points on the ASCII
   strings involved.
-/

set_option linter.unusedVariables false

namespace SpaceshipFont

abbrev Path := String

/-- ASCII lowercasing of a string, mirroring str::to_ascii_lowercase
(Char.toLower maps exactly the letters A..Z). -/
def lowStr (s : String) : String := String.mk (s.data.map Char.toLower)

/-- Substring test on character lists: some suffix of the haystack starts
with the needle. -/
def listContains (needle : List Char) : List Char → Bool
  | [] => needle.isEmpty
  | a :: t => List.isPrefixOf needle (a :: t) || listContains needle t

/-- Rust str::contains: the needle occurs as a contiguous substring of the
haystack. -/
def containsStr (hay needle : String) : Bool := listContains needle.data hay.data

/-- Split a character list at every occurrence of a separator. -/
def splitCharsOn (sep : Char) : List Char → List (List Char)
  | [] => [[]]
  | c :: t =>
    match splitCharsOn sep t with
    | [] => [[c]]
    | g :: gs => if c = sep then [] :: g :: gs else (c :: g) :: gs

/-- Rust str::split at a single character (split(' ') in search_fonts):
empty input yields one empty term, consecutive separators yield empty
terms. -/
def splitOnChar (s : String) (sep : Char) : List String :=
  (splitCharsOn sep s.data).map String.mk

/-- Remove the first occurrence of a value from a list, mirroring
Vec::remove at the position found by Iterator::position. -/
def removeFirst : List Nat → Nat → List Nat
  | [], _ => []
  | a :: t, x => if a = x then t else a :: removeFirst t x

/-- Rust Vec::dedup: collapse consecutive equal elements. -/
def dedupAdjacent : List Nat → List Nat
  | [] => []
  | [a] => [a]
  | a :: b :: t => if a = b then dedupAdjacent (b :: t) else a :: dedupAdjacent (b :: t)

/-- Insert into a sorted list, keeping order. -/
def sortedInsert (x : Nat) : List Nat → List Nat
  | [] => [x]
  | a :: t => if x ≤ a then x :: a :: t else a :: sortedInsert x t

/-- Sorting model for Vec::sort on cache indices. -/
def insertionSort : List Nat → List Nat
  | [] => []
  | a :: t => sortedInsert a (insertionSort t)

/-- Association-list lookup (model of HashMap::get). -/
def alGet {α β : Type} [DecidableEq α] : List (α × β) → α → Option β
  | [], _ => none
  | (k, v) :: t, x => if x = k then some v else alGet t x

/-- Association-list insert (model of HashMap::insert: replaces the value at
an existing key, otherwise adds the binding). -/
def alInsert {α β : Type} [DecidableEq α] : List (α × β) → α → β → List (α × β)
  | [], k, v => [(k, v)]
  | (k0, v0) :: t, k, v => if k = k0 then (k, v) :: t else (k0, v0) :: alInsert t k v

/-- Update the value bound to a key in place (model of HashMap::get_mut
followed by mutation). -/
def alUpdate {α β : Type} [DecidableEq α] (m : List (α × β)) (k : α) (f : β → β) :
    List (α × β) :=
  m.map (fun p => if p.1 = k then (p.1, f p.2) else p)

/-- One cached face (struct FontCacheData in text.rs). Axis records are
abstracted to their tags and named instances to their display names: the
cache only ever compares the lengths of these lists; the raw byte slice
reference becomes the arena reference id rawDataRef. -/
structure FontCacheData where
  rawDataRef : Nat
  fontRefIdx : Nat
  familyName : String
  subfamilyName : Option String
  revision : Int
  variationAxes : List Nat
  namedInstances : List String
  features : List String
deriving DecidableEq

/-- Per-face data produced by the parallel parse phase (struct
RawFontCacheData): FontCacheData without the arena reference. -/
structure RawFontCacheData where
  fontRefIdx : Nat
  familyName : String
  subfamilyName : Option String
  revision : Int
  variationAxes : List Nat
  namedInstances : List String
  features : List String
deriving DecidableEq

/-- The conversion performed at the top of the commit loop of
store_raw_data: attach the arena reference to the parsed face data. -/
def toFontCacheData (rawDataRef : Nat) (rf : RawFontCacheData) : FontCacheData :=
  ⟨rawDataRef, rf.fontRefIdx, rf.familyName, rf.subfamilyName, rf.revision,
   rf.variationAxes, rf.namedInstances, rf.features⟩

/-- Lazily derived per-entry state (struct LazyFontCacheData): each OnceLock
holds, once populated, the (arena reference, face index) pair the derived
value was computed from. -/
structure LazyFontCacheData where
  extFontRef : Option (Nat × Nat)
  shaperData : Option (Nat × Nat)
  outlineGlyphsRef : Option (Nat × Nat)
deriving DecidableEq

def LazyFontCacheData.new : LazyFontCacheData := ⟨none, none, none⟩

/-- enum FontError of text.rs (IO read failure folded in as ioNotFound). -/
inductive FontError where
  | fileExtension (path ext : String)
  | ioNotFound (path : String)
  | missingData (path field : String)
  | namedInstanceHasNoName (path : String) (nameId : Nat)
  | notCached (familyName : String) (subfamilyName : Option String)
deriving DecidableEq

/-- enum FontFileType. -/
inductive FontFileType where
  | single
  | collection
deriving DecidableEq

/-- enum RawCacheResult: outcome of the parallel phase for one path. -/
inductive RawCacheResult where
  | alreadyCached (path : Path)
  | new (path : Path) (rawDataRef : Nat) (rawDataHash : Nat)
      (fontFileType : FontFileType) (fontDatas : List RawFontCacheData)
deriving DecidableEq

/-- enum CacheResult: outcome of the sequential commit for one path. -/
inductive CacheResult where
  | new (path : Path) (newlyCached replaced skipped : List Nat)
  | alreadyCached (path : Path) (idxs : List Nat)
  | noNewData (path : Path) (existingIdxs : List Nat)
deriving DecidableEq

/-- struct FontCache. -/
structure FontCache where
  paths : List Path
  fontFileTypes : List FontFileType
  pathsToFontIdxs : List (Path × List Nat)
  pathsToDataRefs : List (Path × Nat)
  rawDataHashesToPaths : List (Nat × Path)
  fontDatas : List FontCacheData
  lazyFontDatas : List LazyFontCacheData
deriving DecidableEq

/-- FontCache::new. -/
def FontCache.new : FontCache := ⟨[], [], [], [], [], [], []⟩

/-- The nested is_match of FontCache::find_font: case-insensitive equality
on the family name and, when a subfamily is requested, case-insensitive
equality on the subfamily name. -/
def findIsMatch (cachedFamilyName : String) (cachedSubfamilyName : Option String)
    (familyName : String) (subfamilyName : Option String) : Bool :=
  (lowStr cachedFamilyName == lowStr familyName) &&
    (subfamilyName.isNone ||
      cachedSubfamilyName.map lowStr == subfamilyName.map lowStr)

/-- The family_idxs list built inside find_font: indices of all entries the
query matches, in table order. -/
def matchIdxs (entries : List FontCacheData) (familyName : String)
    (subfamilyName : Option String) : List Nat :=
  (entries.enum.filter
    (fun p => findIsMatch p.2.familyName p.2.subfamilyName familyName subfamilyName)).map
    Prod.fst

/-- FontCache::find_font reduced to the cache index it selects: Ok exactly
when there is a single match, or at least one match and no subfamily was
requested; the first match is returned. -/
def findFontIdx (entries : List FontCacheData) (familyName : String)
    (subfamilyName : Option String) : Option Nat :=
  let familyIdxs := matchIdxs entries familyName subfamilyName
  if familyIdxs.length == 1 || (subfamilyName.isNone && !familyIdxs.isEmpty) then
    familyIdxs.head?
  else
    none

/-- FontCache::find_font (the FontRef result is represented by its
cache_index). -/
def FontCache.findFont (c : FontCache) (familyName : String)
    (subfamilyName : Option String) : Except FontError Nat :=
  match findFontIdx c.fontDatas familyName subfamilyName with
  | some i => .ok i
  | none => .error (.notCached familyName subfamilyName)

/-- The nested is_match of FontCache::search_fonts: case-insensitive
substring containment on the family, and on the subfamily when one is part
of the query (an entry without subfamily fails a subfamily query). The
cached side is lowered with `to_ascii_lowercase` (`lowStr`); the query side
uses the standard-library Unicode `str::to_lowercase`, injected here as
the `uniLower` parameter. -/
def searchIsMatch (uniLower : String → String)
    (cachedFamilyName : String) (cachedSubfamilyName : Option String)
    (familyName : String) (subfamilyName : Option String) : Bool :=
  containsStr (lowStr cachedFamilyName) (uniLower familyName) &&
    (match subfamilyName with
     | none => true
     | some q =>
       match cachedSubfamilyName with
       | some s => containsStr (lowStr s) (uniLower q)
       | none => false)

/-- The filter applied to one (index, entry) pair for one split position of
search_fonts: try (prefix, suffix) as (family, subfamily) and reversed. -/
def searchSplitMatch (uniLower : String → String) (fd : FontCacheData)
    (one two : String) : Bool :=
  (!one.isEmpty &&
    searchIsMatch uniLower fd.familyName fd.subfamilyName one
      (if two.isEmpty then none else some two)) ||
  (!two.isEmpty &&
    searchIsMatch uniLower fd.familyName fd.subfamilyName two
      (if one.isEmpty then none else some one))

/-- FontCache::search_fonts, with FontRef results represented by their
cache indices (FontRef equality and ordering are by cache_index, so sort
and dedup act on the indices). `uniLower` is the external Unicode
lowering used on the query side. -/
def FontCache.searchFonts (c : FontCache) (uniLower : String → String)
    (searchString : String) : List Nat :=
  let terms := splitOnChar searchString ' '
  let tlen := terms.length
  let results := (List.range (tlen + 1)).foldl
    (fun acc i =>
      let one := String.intercalate " " (terms.take i)
      let two := String.intercalate " " (terms.drop i)
      acc ++ ((c.fontDatas.enum.filter
        (fun p => searchSplitMatch uniLower p.2 one two)).map
        Prod.fst))
    []
  dedupAdjacent (insertionSort results)

/-- The duplicate-ranking comparison of store_raw_data: the new face is
better when it has more variation axes, or equally many and more features,
or equal again and more named instances, or all equal and a strictly higher
revision. -/
def betterFont (fd existing : FontCacheData) : Bool :=
  decide (existing.variationAxes.length < fd.variationAxes.length) ||
  (fd.variationAxes.length == existing.variationAxes.length &&
    decide (existing.features.length < fd.features.length)) ||
  (fd.variationAxes.length == existing.variationAxes.length &&
    fd.features.length == existing.features.length &&
    decide (existing.namedInstances.length < fd.namedInstances.length)) ||
  (fd.variationAxes.length == existing.variationAxes.length &&
    fd.features.length == existing.features.length &&
    fd.namedInstances.length == existing.namedInstances.length &&
    decide (existing.revision < fd.revision))

/-- Ranking test against the entry stored at an index (total version of the
comparison against the FontRef returned by find_font; the index returned by
findFontIdx is always in range). -/
def betterAtIdx (entries : List FontCacheData) (fd : FontCacheData) (i : Nat) : Bool :=
  match entries[i]? with
  | some existing => betterFont fd existing
  | none => false

/-- The decision loop of store_raw_data over the faces of one file: against
the cache state at entry to the commit (the table is only mutated after the
loop), each face is classified as new, as a replacement of the matched
index, or as skipped. Returns (new entries, replacements, skipped indices)
in face order. -/
def processFaces (entries : List FontCacheData) :
    List FontCacheData → List FontCacheData × List (Nat × FontCacheData) × List Nat
  | [] => ([], [], [])
  | fd :: rest =>
    let pr := processFaces entries rest
    match findFontIdx entries fd.familyName fd.subfamilyName with
    | some i =>
      if betterAtIdx entries fd i then (pr.1, (i, fd) :: pr.2.1, pr.2.2)
      else (pr.1, pr.2.1, i :: pr.2.2)
    | none => (fd :: pr.1, pr.2.1, pr.2.2)

/-- One staged replacement of store_raw_data: find the single other path
whose index set contains the replaced index (panic when there is none, as
old_paths[0] does), unlink the index from it, overwrite the entry, and
reset its lazily derived data. -/
def unlinkAndReplace (path : Path) (c : FontCache) (r : Nat × FontCacheData) :
    Option FontCache :=
  let oldPaths := (c.pathsToFontIdxs.filter
    (fun p => !(p.1 == path) && p.2.contains r.1)).map Prod.fst
  match oldPaths with
  | [] => none
  | oldPath :: _ =>
    some { c with
      pathsToFontIdxs := alUpdate c.pathsToFontIdxs oldPath (fun l => removeFirst l r.1),
      fontDatas := c.fontDatas.set r.1 r.2,
      lazyFontDatas := c.lazyFontDatas.set r.1 LazyFontCacheData.new }

/-- The replacement loop of store_raw_data. -/
def applyReplacements (path : Path) :
    FontCache → List (Nat × FontCacheData) → Option FontCache
  | c, [] => some c
  | c, r :: rest =>
    match unlinkAndReplace path c r with
    | none => none
    | some c1 => applyReplacements path c1 rest

/-- Outcome of store_raw_data: a committed state with its CacheResult, a
propagated error (the cache untouched), or a panic (process aborts, no
successor state is observable). -/
inductive StoreOutcome where
  | ok (c : FontCache) (result : CacheResult)
  | err (e : FontError)
  | panic
deriving DecidableEq

/-- The RawCacheResult::New arm of store_raw_data. -/
def storeNewData (c : FontCache) (path : Path) (rawDataRef rawDataHash : Nat)
    (fontFileType : FontFileType) (rawFontDatas : List RawFontCacheData) : StoreOutcome :=
  let faceDatas := rawFontDatas.map (toFontCacheData rawDataRef)
  let pcd := processFaces c.fontDatas faceDatas
  let newFontDatas := pcd.1
  let replaceFontDatas := pcd.2.1
  let skippedFontIdxs := pcd.2.2
  if newFontDatas.isEmpty && replaceFontDatas.isEmpty then
    .ok { c with
          paths := c.paths ++ [path],
          rawDataHashesToPaths := alInsert c.rawDataHashesToPaths rawDataHash path,
          fontFileTypes := c.fontFileTypes ++ [fontFileType],
          pathsToFontIdxs := alInsert c.pathsToFontIdxs path [],
          pathsToDataRefs := alInsert c.pathsToDataRefs path rawDataRef }
        (.noNewData path skippedFontIdxs)
  else
    let newFontsStartIndex := c.fontDatas.length
    let newFontIdxs := (List.range newFontDatas.length).map (fun i => newFontsStartIndex + i)
    let replacedFontIdxs := replaceFontDatas.map Prod.fst
    let c1 := { c with
          paths := c.paths ++ [path],
          rawDataHashesToPaths := alInsert c.rawDataHashesToPaths rawDataHash path,
          fontFileTypes := c.fontFileTypes ++ [fontFileType],
          pathsToFontIdxs :=
            alInsert c.pathsToFontIdxs path (newFontIdxs ++ replacedFontIdxs),
          pathsToDataRefs := alInsert c.pathsToDataRefs path rawDataRef }
    match applyReplacements path c1 replaceFontDatas with
    | none => .panic
    | some c2 =>
      .ok { c2 with
            lazyFontDatas :=
              c2.lazyFontDatas ++ List.replicate newFontDatas.length LazyFontCacheData.new,
            fontDatas := c2.fontDatas ++ newFontDatas }
          (.new path newFontIdxs replacedFontIdxs skippedFontIdxs)

/-- FontCache::store_raw_data: the strictly sequential commit step for one
parallel-phase result. An error input is returned before any state is
touched; an AlreadyCached input only reads the index set of the original
path (panicking, as the unwrap does, if that path was never committed). -/
def storeRawData (c : FontCache) : Except FontError RawCacheResult → StoreOutcome
  | .error e => .err e
  | .ok (.alreadyCached path) =>
    match alGet c.pathsToFontIdxs path with
    | none => .panic
    | some idxs => .ok c (.alreadyCached path idxs)
  | .ok (.new path ref hash ft datas) => storeNewData c path ref hash ft datas

/-- Abstraction of one path on disk as load_raw_data sees it: either the
extension/read check fails (before hashing), or the file has a content
hash, a file type, and a per-face parse outcome (family name, named
instances etc. may fail with an error, aborting that file only). -/
inductive FileOutcome where
  | badFile (e : FontError)
  | content (rawDataHash : Nat) (fontFileType : FontFileType)
      (parsed : Except FontError (List RawFontCacheData))

/-- FontCache::load_raw_data for one path, given the snapshot of
raw_data_hashes_to_paths captured when the call began (the parallel phase
borrows the map immutably, so every path of one call sees the same
snapshot). The arena reference of newly leaked bytes is identified with
the content hash. -/
def loadRawData (snapshot : List (Nat × Path)) (path : Path) (file : FileOutcome) :
    Except FontError RawCacheResult :=
  match file with
  | .badFile e => .error e
  | .content hash ftype parsed =>
    match alGet snapshot hash with
    | some p => .ok (.alreadyCached p)
    | none =>
      match parsed with
      | .error e => .error e
      | .ok faces => .ok (.new path hash hash ftype faces)

/-- A failed load of one path inside load_multiple_font_files: an error
propagated by the ? operator, or a panic. -/
inductive LoadFail where
  | err (e : FontError)
  | panic
deriving DecidableEq

/-- The sequential commit loop of load_multiple_font_files: fold
store_raw_data over the parallel-phase results; the first error or panic
stops the loop (the ? operator returns immediately), keeping the state
already committed and discarding the remaining results. -/
def loadStoreLoop (c : FontCache) :
    List (Except FontError RawCacheResult) → FontCache × List CacheResult × Option LoadFail
  | [] => (c, [], none)
  | rd :: rest =>
    match storeRawData c rd with
    | .err e => (c, [], some (.err e))
    | .panic => (c, [], some .panic)
    | .ok c1 r =>
      let rec2 := loadStoreLoop c1 rest
      (rec2.1, r :: rec2.2.1, rec2.2.2)

/-- The indices one CacheResult contributes to result_idxs in
load_multiple_font_files: newly cached and replaced indices for a New
result, the already linked indices otherwise (skipped indices of a New
result are not included there). -/
def cacheResultIdxs : CacheResult → List Nat
  | .new _ newlyCached replaced _ => newlyCached ++ replaced
  | .alreadyCached _ idxs => idxs
  | .noNewData _ existingIdxs => existingIdxs

inductive LoadManyOutcome where
  | ok (count : Nat)
  | err (e : FontError)
  | panic
deriving DecidableEq

/-- FontCache::load_multiple_font_files: map the parallel phase over all
paths against the snapshot of the hash map, then commit sequentially;
on success return the length of the sorted, deduplicated concatenation of
all contributed index lists. The returned state is the mutated self even
when an error is returned. -/
def FontCache.loadMultipleFontFiles (c : FontCache) (inputs : List (Path × FileOutcome)) :
    FontCache × LoadManyOutcome :=
  let rawDatas := inputs.map (fun pf => loadRawData c.rawDataHashesToPaths pf.1 pf.2)
  match loadStoreLoop c rawDatas with
  | (c1, _, some (.err e)) => (c1, .err e)
  | (c1, _, some .panic) => (c1, .panic)
  | (c1, results, none) =>
    (c1, .ok (dedupAdjacent (insertionSort ((results.map cacheResultIdxs).flatten))).length)

inductive LoadFileOutcome where
  | ok (idxs : List Nat)
  | err (e : FontError)
  | panic
deriving DecidableEq

/-- FontCache::load_font_file: the single-path form (its result also
includes the skipped indices of a New commit). -/
def FontCache.loadFontFile (c : FontCache) (input : Path × FileOutcome) :
    FontCache × LoadFileOutcome :=
  match storeRawData c (loadRawData c.rawDataHashesToPaths input.1 input.2) with
  | .ok c1 (.new _ newlyCached replaced skipped) =>
    (c1, .ok (newlyCached ++ replaced ++ skipped))
  | .ok c1 (.alreadyCached _ idxs) => (c1, .ok idxs)
  | .ok c1 (.noNewData _ existingIdxs) => (c1, .ok existingIdxs)
  | .err e => (c, .err e)
  | .panic => (c, .panic)

/-- LazyFontCacheData::ext_font_ref through FontCache: get_or_init of the
parsed face handle, built from the entry raw data reference and face index
(ExtFontRef::from_index). Out-of-range access is a panic, returned as
none. -/
def extFontRefOp (c : FontCache) (i : Nat) : Option (FontCache × (Nat × Nat)) :=
  match c.fontDatas[i]?, c.lazyFontDatas[i]? with
  | some fd, some lz =>
    match lz.extFontRef with
    | some v => some (c, v)
    | none =>
      let v := (fd.rawDataRef, fd.fontRefIdx)
      some ({ c with lazyFontDatas :=
                c.lazyFontDatas.set i { lz with extFontRef := some v } }, v)
  | _, _ => none

/-- LazyFontCacheData::shaper_data: get_or_init that first forces the
parsed face handle (ShaperData::new borrows it), then stores the shaping
precompute derived from the same (reference, face index) pair. -/
def shaperDataOp (c : FontCache) (i : Nat) : Option (FontCache × (Nat × Nat)) :=
  match c.lazyFontDatas[i]? with
  | none => none
  | some lz =>
    match lz.shaperData with
    | some v => some (c, v)
    | none =>
      match extFontRefOp c i with
      | none => none
      | some (c1, v) =>
        match c1.lazyFontDatas[i]? with
        | none => none
        | some lz1 =>
          some ({ c1 with lazyFontDatas :=
                    c1.lazyFontDatas.set i { lz1 with shaperData := some v } }, v)

/-- LazyFontCacheData::outline_glyph_collection: get_or_init that first
forces the parsed face handle and stores the outline collection derived
from the same pair. -/
def outlineGlyphCollectionOp (c : FontCache) (i : Nat) : Option (FontCache × (Nat × Nat)) :=
  match c.lazyFontDatas[i]? with
  | none => none
  | some lz =>
    match lz.outlineGlyphsRef with
    | some v => some (c, v)
    | none =>
      match extFontRefOp c i with
      | none => none
      | some (c1, v) =>
        match c1.lazyFontDatas[i]? with
        | none => none
        | some lz1 =>
          some ({ c1 with lazyFontDatas :=
                    c1.lazyFontDatas.set i { lz1 with outlineGlyphsRef := some v } }, v)

/-- zeno::Placement: pixel bounding box of a rasterized glyph. -/
structure Placement where
  left : Int
  top : Int
  width : Nat
  height : Nat
deriving DecidableEq

/-- A rectangle handed out by the atlas allocator (etagere Box2D, kept as
origin plus size; coordinates are in atlas byte columns and pixel rows). -/
structure AtlasRect where
  x : Nat
  y : Nat
  w : Nat
  h : Nat
deriving DecidableEq

/-- Modelled from the interface of the external etagere::AtlasAllocator, a
shelf packing allocator: allocate returns a fresh id with a rectangle
inside the atlas bounds, get returns the rectangle of a previously
returned id. The claims rely only on this interface contract. -/
structure AtlasAllocator where
  width : Nat
  height : Nat
  shelfX : Nat
  shelfY : Nat
  shelfH : Nat
  allocs : List AtlasRect

def AtlasAllocator.new (width height : Nat) : AtlasAllocator :=
  ⟨width, height, 0, 0, 0, []⟩

/-- Shelf allocation: place on the current shelf when the rectangle fits,
else open a new shelf below; fail (None) when the atlas is exhausted. -/
def AtlasAllocator.allocate (a : AtlasAllocator) (w h : Nat) :
    Option (Nat × AtlasRect × AtlasAllocator) :=
  if a.shelfX + w ≤ a.width ∧ a.shelfY + h ≤ a.height then
    let r : AtlasRect := ⟨a.shelfX, a.shelfY, w, h⟩
    some (a.allocs.length, r,
      { a with shelfX := a.shelfX + w, shelfH := max a.shelfH h,
               allocs := a.allocs ++ [r] })
  else if w ≤ a.width ∧ a.shelfY + a.shelfH + h ≤ a.height then
    let r : AtlasRect := ⟨0, a.shelfY + a.shelfH, w, h⟩
    some (a.allocs.length, r,
      { a with shelfX := w, shelfY := a.shelfY + a.shelfH, shelfH := h,
               allocs := a.allocs ++ [r] })
  else
    none

/-- etagere get: the rectangle of an allocation id. -/
def AtlasAllocator.get (a : AtlasAllocator) (id : Nat) : Option AtlasRect :=
  a.allocs[id]?

/-- struct GlyphCacheKey: face cache index, glyph id, floored
pixels-per-em, and the variable-font coordinate vector (equality over the
coordinates is part of the key). -/
structure GlyphCacheKey where
  fontCacheIndex : Nat
  glyphId : Nat
  ppem : Nat
  coords : List Int
deriving DecidableEq

/-- The UV box returned by get_glyph_texture_bounds
(etagere::euclid::Box2D of f32, exact here as rationals). -/
structure UvBounds where
  minX : ℚ
  minY : ℚ
  maxX : ℚ
  maxY : ℚ
deriving DecidableEq

/-- The nested result_uv_bounds: scale the allocated box x by 0.25 (byte
columns to texel columns) and take a box of the placement size from its
origin. -/
def resultUvBounds (allocBox : AtlasRect) (rasterPlacement : Placement) : UvBounds :=
  ⟨(allocBox.x : ℚ) / 4, (allocBox.y : ℚ),
   (allocBox.x : ℚ) / 4 + rasterPlacement.width, (allocBox.y : ℚ) + rasterPlacement.height⟩

/-- u8 saturating addition on byte values. -/
def satAdd (a b : Nat) : Nat := min 255 (a + b)

/-- Pointwise write into the byte store. -/
def writeByte (t : Nat → Nat) (i v : Nat) : Nat → Nat :=
  fun j => if j = i then v else t j

/-- The body of the blit loop of get_glyph_texture_bounds for one pixel:
read the three subpixel coverage samples of (row, value) from the draw
buffer, write them to the R, G, B channels at the allocated offset and the
saturating sum of the three to the alpha channel. -/
def blitCell (draw : Nat → Nat) (start rowSize width : Nat) (row col : Nat)
    (t : Nat → Nat) : Nat → Nat :=
  let r := draw (row * width * 4 + col * 4)
  let g := draw (row * width * 4 + col * 4 + 1)
  let b := draw (row * width * 4 + col * 4 + 2)
  let alpha := satAdd (satAdd r g) b
  let base := start + row * rowSize + col * 4
  writeByte (writeByte (writeByte (writeByte t base r) (base + 1) g) (base + 2) b)
    (base + 3) alpha

/-- The inner (per-row) blit loop. -/
def blitRow (draw : Nat → Nat) (start rowSize width : Nat) (row : Nat)
    (t : Nat → Nat) : Nat → Nat :=
  (List.range width).foldl (fun acc col => blitCell draw start rowSize width row col acc) t

/-- The full blit loop over all rows of the rasterized placement. -/
def blit (t : Nat → Nat) (draw : Nat → Nat) (start rowSize width height : Nat) :
    Nat → Nat :=
  (List.range height).foldl (fun acc row => blitRow draw start rowSize width row acc) t

/-- The external rasterizer (Rasterizer::render_mask through skrifa/zeno):
deterministic in the face, glyph id, size and coordinates; returns the
glyph placement and the contents of the draw buffer (subpixel coverage,
4 bytes per pixel, rows of width*4 bytes) after rendering into a zeroed
buffer. -/
abbrev RenderMaskFn := Nat → Nat → ℚ → List Int → Placement × (Nat → Nat)

/-- struct GlyphCache. rasterCount is the rasterizer call counter the spec
proposes for verifying the rasterize-once property; it has no effect on
any other field. -/
structure GlyphCache where
  textureRowSize : Nat
  textureRows : Nat
  atlas : AtlasAllocator
  drawTexture : Nat → Nat
  texture : Nat → Nat
  textureDataDirty : Bool
  rasterCount : Nat
  glyphMap : List (GlyphCacheKey × (Nat × Placement))

/-- GlyphCache::new. -/
def GlyphCache.new (textureRowSize textureRows : Nat) : GlyphCache :=
  ⟨textureRowSize, textureRows, AtlasAllocator.new textureRowSize textureRows,
   fun _ => 0, fun _ => 0, false, 0, []⟩

/-- GlyphCache::get_glyph_texture_bounds. The skrifa Size argument is its
optional pixels-per-em value; size.ppem().unwrap() on an unscaled size is
a panic (None), hit before the cache key is formed. On a hit the cached
placement and the UV box recomputed from the stored allocation id are
returned with no other work; on a miss the draw buffer is cleared, the
rasterizer invoked, a rectangle of width*4 bytes allocated (unwrap:
exhaustion is a panic), the coverage blitted with derived alpha, the key
inserted, and the dirty flag set. -/
def getGlyphTextureBounds (render : RenderMaskFn) (c : GlyphCache)
    (fontCacheIndex glyphId : Nat) (size : Option ℚ) (coords : List Int) :
    Option (GlyphCache × Placement × UvBounds) :=
  match size with
  | none => none
  | some ppem =>
    let roundedSize : Nat := (⌊ppem⌋).toNat
    let key : GlyphCacheKey := ⟨fontCacheIndex, glyphId, roundedSize, coords⟩
    match alGet c.glyphMap key with
    | some (allocId, placement) =>
      match c.atlas.get allocId with
      | none => none
      | some box => some (c, placement, resultUvBounds box placement)
    | none =>
      let placement := (render fontCacheIndex glyphId ppem coords).1
      let drawTexture1 := (render fontCacheIndex glyphId ppem coords).2
      match c.atlas.allocate (placement.width * 4) placement.height with
      | none => none
      | some (allocId, rect, atlas1) =>
        let start := rect.y * c.textureRowSize + rect.x
        let texture1 :=
          blit c.texture drawTexture1 start c.textureRowSize placement.width placement.height
        some ({ c with
                atlas := atlas1,
                drawTexture := drawTexture1,
                texture := texture1,
                textureDataDirty := true,
                rasterCount := c.rasterCount + 1,
                glyphMap := (key, (allocId, placement)) :: c.glyphMap },
              placement, resultUvBounds rect placement)

/-! Predicates used to state the claims, and concrete fixtures. -/

/-- The (family, subfamily) identity of an entry, under the
case-insensitive comparison the cache uses everywhere. -/
def lowPair (fd : FontCacheData) : String × Option String :=
  (lowStr fd.familyName, fd.subfamilyName.map lowStr)

/-- A well-formed entry table: every entry carries a subfamily name and no
two entries share a (family, subfamily) pair. -/
def GoodList (l : List FontCacheData) : Prop :=
  (∀ fd ∈ l, fd.subfamilyName.isSome = true) ∧
    l.Pairwise (fun a b => lowPair a ≠ lowPair b)

instance (l : List FontCacheData) : Decidable (GoodList l) :=
  inferInstanceAs (Decidable ((∀ fd ∈ l, fd.subfamilyName.isSome = true) ∧
    l.Pairwise (fun a b => lowPair a ≠ lowPair b)))

/-- The restriction on load inputs under which the uniqueness invariant is
provable: every face of a newly parsed file carries a subfamily name and
the faces of one file have pairwise distinct (family, subfamily) pairs. -/
def GoodInput : Except FontError RawCacheResult → Prop
  | .ok (.new _ ref _ _ faces) => GoodList (faces.map (toFontCacheData ref))
  | _ => True

/-- Cache states reachable from the empty cache by committed (non-error,
non-panic) store_raw_data steps whose inputs satisfy GoodInput. -/
inductive ReachGood : FontCache → Prop
  | init : ReachGood FontCache.new
  | step {c c1 : FontCache} {input : Except FontError RawCacheResult} {r : CacheResult} :
      ReachGood c → GoodInput input → storeRawData c input = .ok c1 r → ReachGood c1

/-- Spec-side matching predicate of find_font: entry i matches the query
when its family equals the requested family case-insensitively and, if a
subfamily is requested, its subfamily equals it case-insensitively. -/
def specFindMatch (entries : List FontCacheData) (i : Nat) (familyName : String)
    (subfamilyName : Option String) : Prop :=
  ∃ fd, entries[i]? = some fd ∧ lowStr fd.familyName = lowStr familyName ∧
    ∀ s, subfamilyName = some s → fd.subfamilyName.map lowStr = some (lowStr s)

/-- Spec-side hit predicate of search_fonts: some prefix/suffix partition
of the space-separated terms matches entry idx one way or the other. -/
def searchHit (uniLower : String → String) (c : FontCache)
    (searchString : String) (idx : Nat) : Prop :=
  ∃ k, k ≤ (splitOnChar searchString ' ').length ∧ ∃ fd, c.fontDatas[idx]? = some fd ∧
    searchSplitMatch uniLower fd
      (String.intercalate " " ((splitOnChar searchString ' ').take k))
      (String.intercalate " " ((splitOnChar searchString ' ').drop k)) = true

/-- The distinct indices that were newly cached or replaced across the
results of one load_multiple_font_files call (ghost data for the returned
count). -/
def newlyReplacedIdxs (results : List CacheResult) : List Nat :=
  (results.map (fun r =>
    match r with
    | .new _ newlyCached replaced _ => newlyCached ++ replaced
    | _ => [])).flatten

/-- The sanity condition debug-asserted after every mutation of
store_raw_data: the number of indices linked across all paths equals the
number of live entries. -/
def pathLinkSanity (c : FontCache) : Prop :=
  c.fontDatas.length = (c.pathsToFontIdxs.map (fun p => p.2.length)).sum

/-- Collection of all indices linked to some path of the cache. -/
def linkedIdxs (c : FontCache) : List Nat := (c.pathsToFontIdxs.map Prod.snd).flatten

/-! Concrete fixtures for counterexamples and witnesses. -/

/-- A minimal single face: family Alpha, subfamily Regular. -/
def exFaceA : RawFontCacheData := ⟨0, "Alpha", some "Regular", 0, [], [], []⟩

/-- A face with a different family. -/
def exFaceB : RawFontCacheData := ⟨0, "Beta", some "Regular", 0, [], [], []⟩

/-- The Alpha face with one variation axis: strictly better under the
replacement ranking. -/
def exFaceABetter : RawFontCacheData := ⟨0, "Alpha", some "Regular", 0, [42], [], []⟩

/-- Scenario A face: TestFont / Regular with features kern and liga. -/
def exFaceTF : RawFontCacheData := ⟨0, "TestFont", some "Regular", 0, [], [], ["kern", "liga"]⟩

/-- A cache holding one Arial / Regular face, loaded from one file. -/
def arialCache : FontCache :=
  (FontCache.new.loadFontFile
    ("arial.ttf", .content 5 .single (.ok [⟨0, "Arial", some "Regular", 0, [], [], []⟩]))).1

/-- A cache holding the TestFont face, loaded from one file. -/
def testFontCache : FontCache :=
  (FontCache.new.loadFontFile ("testfont.ttf", .content 9 .single (.ok [exFaceTF]))).1

/-- State after loading path p with content hash 7 (one Alpha face). -/
def c1StateA : FontCache :=
  (FontCache.new.loadMultipleFontFiles [("p", .content 7 .single (.ok [exFaceA]))]).1

/-- Second call input: byte-identical content (hash 7) at a distinct
path q. -/
def c1InputQ : Path × FileOutcome := ("q", .content 7 .single (.ok [exFaceA]))

/-- Inputs of the C2 counterexample: a good file, a failing file (bad
extension), a second good file. -/
def c2Inputs : List (Path × FileOutcome) :=
  [("g1.ttf", .content 11 .single (.ok [exFaceA])),
   ("bad.xyz", .badFile (.fileExtension "bad.xyz" "xyz")),
   ("g2.ttf", .content 12 .single (.ok [exFaceB]))]

/-- State after loading path p (hash 1, face Alpha). -/
def c7State1 : FontCache :=
  (FontCache.new.loadFontFile ("p", .content 1 .single (.ok [exFaceA]))).1

/-- State after re-loading path p whose content on disk changed (hash 2,
face Beta). -/
def c7State2 : FontCache :=
  (c7State1.loadFontFile ("p", .content 2 .single (.ok [exFaceB]))).1

/-- c7State1 with the lazy data of entry 0 populated on first demand. -/
def c9Populated : FontCache :=
  match extFontRefOp c7State1 0 with
  | some (c, _) => c
  | none => c7State1

/-- c9Populated after a load that replaces entry 0 with the better Alpha
face. -/
def c9Replaced : FontCache :=
  (c9Populated.loadFontFile ("q2", .content 21 .single (.ok [exFaceABetter]))).1

/-- A deterministic rasterizer fixture: a 1 by 1 glyph with coverage
samples 10, 20, 30. -/
def render0 : RenderMaskFn := fun _ _ _ _ =>
  (⟨0, 0, 1, 1⟩, fun i => if i = 0 then 10 else if i = 1 then 20 else if i = 2 then 30 else 0)

/-- An empty 8 by 8 glyph cache fixture. -/
def gc0 : GlyphCache := GlyphCache.new 8 8

/-- State after loading one collection file that contains two faces with
the identical (family, subfamily) pair. -/
def c3DupState : FontCache :=
  (FontCache.new.loadFontFile ("dup.ttc", .content 13 .collection (.ok [exFaceA, exFaceA]))).1

/-! Helper lemmas. -/

theorem mem_of_getElemEq {α : Type} {l : List α} {i : Nat} {a : α} (h : l[i]? = some a) :
    a ∈ l := by
  obtain ⟨hlt, rfl⟩ := List.getElem?_eq_some_iff.mp h
  exact List.getElem_mem hlt

theorem mem_sortedInsert (a x : Nat) : ∀ l : List Nat,
    x ∈ sortedInsert a l ↔ x = a ∨ x ∈ l
  | [] => by simp [sortedInsert]
  | b :: t => by
    by_cases h : a ≤ b
    · simp [sortedInsert, h]
    · simp [sortedInsert, h, mem_sortedInsert a x t]
      tauto

theorem sorted_sortedInsert (a : Nat) : ∀ l : List Nat,
    List.Sorted (· ≤ ·) l → List.Sorted (· ≤ ·) (sortedInsert a l)
  | [], _ => by simp [sortedInsert]
  | b :: t, h => by
    rcases List.sorted_cons.mp h with ⟨hb, ht⟩
    by_cases hab : a ≤ b
    · simp only [sortedInsert, if_pos hab]
      refine List.sorted_cons.mpr ⟨?_, h⟩
      intro x hx
      rcases List.mem_cons.mp hx with rfl | hxt
      · exact hab
      · exact le_trans hab (hb x hxt)
    · simp only [sortedInsert, if_neg hab]
      refine List.sorted_cons.mpr ⟨?_, sorted_sortedInsert a t ht⟩
      intro x hx
      rcases (mem_sortedInsert a x t).mp hx with rfl | hxt
      · omega
      · exact hb x hxt

theorem mem_insertionSort (x : Nat) : ∀ l : List Nat, x ∈ insertionSort l ↔ x ∈ l
  | [] => by simp [insertionSort]
  | a :: t => by
    simp [insertionSort, mem_sortedInsert, mem_insertionSort x t]

theorem sorted_insertionSort : ∀ l : List Nat, List.Sorted (· ≤ ·) (insertionSort l)
  | [] => by simp [insertionSort]
  | a :: t => sorted_sortedInsert a _ (sorted_insertionSort t)

theorem mem_dedupAdjacent (x : Nat) : ∀ l : List Nat, x ∈ dedupAdjacent l ↔ x ∈ l
  | [] => by simp [dedupAdjacent]
  | [a] => by simp [dedupAdjacent]
  | a :: b :: t => by
    by_cases h : a = b
    · subst h
      simp [dedupAdjacent, mem_dedupAdjacent x (a :: t), List.mem_cons]
    · simp only [dedupAdjacent, if_neg h, List.mem_cons, mem_dedupAdjacent x (b :: t)]

theorem sorted_dedupAdjacent : ∀ l : List Nat,
    List.Sorted (· ≤ ·) l → List.Sorted (· < ·) (dedupAdjacent l)
  | [], _ => by simp [dedupAdjacent]
  | [a], _ => by simp [dedupAdjacent]
  | a :: b :: t, h => by
    rcases List.sorted_cons.mp h with ⟨hhead, ht⟩
    have hab : a ≤ b := hhead b (by simp)
    by_cases hEq : a = b
    · simpa [dedupAdjacent, hEq] using sorted_dedupAdjacent (b :: t) ht
    · simp only [dedupAdjacent, if_neg hEq]
      refine List.sorted_cons.mpr ⟨?_, sorted_dedupAdjacent (b :: t) ht⟩
      intro x hx
      have hx2 : x ∈ b :: t := (mem_dedupAdjacent x (b :: t)).mp hx
      rcases List.mem_cons.mp hx2 with rfl | hxt
      · omega
      · have hbx : b ≤ x := (List.sorted_cons.mp ht).1 x hxt
        omega

/-- The count Vec::sort then Vec::dedup then len computes is the number of
distinct elements. -/
theorem length_sortDedup (l : List Nat) :
    (dedupAdjacent (insertionSort l)).length = l.toFinset.card := by
  have hs : List.Sorted (· < ·) (dedupAdjacent (insertionSort l)) :=
    sorted_dedupAdjacent _ (sorted_insertionSort l)
  have hnd : (dedupAdjacent (insertionSort l)).Nodup :=
    hs.imp (fun h => Nat.ne_of_lt h)
  have hmem : ∀ x, x ∈ dedupAdjacent (insertionSort l) ↔ x ∈ l := fun x =>
    (mem_dedupAdjacent x _).trans (mem_insertionSort x _)
  have hset : (dedupAdjacent (insertionSort l)).toFinset = l.toFinset := by
    ext x
    simp [List.mem_toFinset, hmem]
  rw [← hset, List.toFinset_card_of_nodup hnd]

theorem mem_matchIdxs {entries : List FontCacheData} {familyName : String}
    {subfamilyName : Option String} {i : Nat} :
    i ∈ matchIdxs entries familyName subfamilyName ↔
      ∃ fd, entries[i]? = some fd ∧
        findIsMatch fd.familyName fd.subfamilyName familyName subfamilyName = true := by
  constructor
  · intro h
    obtain ⟨⟨j, fd⟩, hmem, hj⟩ := List.mem_map.mp h
    obtain ⟨henum, hmatch⟩ := List.mem_filter.mp hmem
    cases hj
    exact ⟨fd, List.mem_enum_iff_getElem?.mp henum, hmatch⟩
  · rintro ⟨fd, hget, hmatch⟩
    exact List.mem_map.mpr
      ⟨(i, fd), List.mem_filter.mpr ⟨List.mem_enum_iff_getElem?.mpr hget, hmatch⟩, rfl⟩

theorem sorted_matchIdxs (entries : List FontCacheData) (familyName : String)
    (subfamilyName : Option String) :
    List.Sorted (· < ·) (matchIdxs entries familyName subfamilyName) := by
  have hsub : List.Sublist (matchIdxs entries familyName subfamilyName)
      (List.range entries.length) := by
    have h1 := (List.filter_sublist (l := entries.enum)
      (p := fun p => findIsMatch p.2.familyName p.2.subfamilyName familyName subfamilyName)).map
      Prod.fst
    rw [List.enum_map_fst] at h1
    exact h1
  exact (List.pairwise_lt_range entries.length).sublist hsub

theorem head_matchIdxs_least {entries : List FontCacheData} {familyName : String}
    {subfamilyName : Option String} {i : Nat}
    (h : (matchIdxs entries familyName subfamilyName).head? = some i) :
    i ∈ matchIdxs entries familyName subfamilyName ∧
      ∀ j ∈ matchIdxs entries familyName subfamilyName, i ≤ j := by
  have hs := sorted_matchIdxs entries familyName subfamilyName
  cases hm : matchIdxs entries familyName subfamilyName with
  | nil => rw [hm] at h; cases h
  | cons a t =>
    rw [hm] at h
    cases h
    rw [hm] at hs
    refine ⟨by simp, ?_⟩
    intro j hj
    rcases List.mem_cons.mp hj with rfl | hjt
    · exact le_refl j
    · exact le_of_lt ((List.sorted_cons.mp hs).1 j hjt)

theorem findFontIdx_eq_none_iff {entries : List FontCacheData} {familyName : String}
    {subfamilyName : Option String} :
    findFontIdx entries familyName subfamilyName = none ↔
      matchIdxs entries familyName subfamilyName = [] ∨
        (subfamilyName ≠ none ∧ 2 ≤ (matchIdxs entries familyName subfamilyName).length) := by
  unfold findFontIdx
  rcases hm : matchIdxs entries familyName subfamilyName with _ | ⟨a, _ | ⟨b, t⟩⟩ <;>
    cases subfamilyName <;> simp

theorem findFontIdx_eq_some {entries : List FontCacheData} {familyName : String}
    {subfamilyName : Option String} {i : Nat}
    (h : findFontIdx entries familyName subfamilyName = some i) :
    (matchIdxs entries familyName subfamilyName).head? = some i := by
  unfold findFontIdx at h
  rcases hm : matchIdxs entries familyName subfamilyName with _ | ⟨a, t⟩ <;> rw [hm] at h
  · simp at h
  · by_cases hc : ((a :: t).length == 1 || (subfamilyName.isNone && !(a :: t).isEmpty)) = true
    · rw [if_pos hc] at h
      exact h
    · rw [if_neg hc] at h
      cases h

theorem findIsMatch_none_iff (ex : FontCacheData) (familyName : String) :
    findIsMatch ex.familyName ex.subfamilyName familyName none = true ↔
      lowStr ex.familyName = lowStr familyName := by
  simp [findIsMatch]

theorem findIsMatch_some_iff (ex : FontCacheData) (familyName s : String) :
    findIsMatch ex.familyName ex.subfamilyName familyName (some s) = true ↔
      lowStr ex.familyName = lowStr familyName ∧
        ex.subfamilyName.map lowStr = some (lowStr s) := by
  simp [findIsMatch]

theorem specFindMatch_iff_mem {entries : List FontCacheData} {familyName : String}
    {subfamilyName : Option String} {i : Nat} :
    specFindMatch entries i familyName subfamilyName ↔
      i ∈ matchIdxs entries familyName subfamilyName := by
  rw [mem_matchIdxs]
  unfold specFindMatch
  constructor
  · rintro ⟨fd, hget, hfam, hsub⟩
    refine ⟨fd, hget, ?_⟩
    cases subfamilyName with
    | none => exact (findIsMatch_none_iff fd familyName).mpr hfam
    | some s => exact (findIsMatch_some_iff fd familyName s).mpr ⟨hfam, hsub s rfl⟩
  · rintro ⟨fd, hget, hmatch⟩
    cases subfamilyName with
    | none =>
      exact ⟨fd, hget, (findIsMatch_none_iff fd familyName).mp hmatch, by simp⟩
    | some s =>
      obtain ⟨hfam, hsub⟩ := (findIsMatch_some_iff fd familyName s).mp hmatch
      exact ⟨fd, hget, hfam, by rintro s2 hs2; cases hs2; exact hsub⟩

/-- C5: FontCache::find_font matches by case-insensitive exact equality on
the family name and, when a subfamily is given, also by case-insensitive
equality on the subfamily; with the subfamily omitted, any entry with a
matching family is acceptable and the first one (the least cache index) is
returned; it returns NotCached exactly when no entry matches or a
subfamily was given and several entries match. -/
theorem find_font_characterization (c : FontCache) (familyName : String)
    (subfamilyName : Option String) :
    (c.findFont familyName subfamilyName = .error (.notCached familyName subfamilyName) ↔
      (¬ ∃ i, specFindMatch c.fontDatas i familyName subfamilyName) ∨
        (subfamilyName ≠ none ∧ ∃ i j, i ≠ j ∧
          specFindMatch c.fontDatas i familyName subfamilyName ∧
          specFindMatch c.fontDatas j familyName subfamilyName)) ∧
    (∀ i, c.findFont familyName subfamilyName = .ok i →
      specFindMatch c.fontDatas i familyName subfamilyName ∧
        ∀ j, specFindMatch c.fontDatas j familyName subfamilyName → i ≤ j) := by
  constructor
  · unfold FontCache.findFont
    rcases hf : findFontIdx c.fontDatas familyName subfamilyName with _ | i
    · simp only [true_iff]
      rcases findFontIdx_eq_none_iff.mp hf with hnil | ⟨hsub, hlen⟩
      · left
        rintro ⟨i, hi⟩
        rw [specFindMatch_iff_mem, hnil] at hi
        cases hi
      · right
        refine ⟨hsub, ?_⟩
        have hs := sorted_matchIdxs c.fontDatas familyName subfamilyName
        rcases hm : matchIdxs c.fontDatas familyName subfamilyName with _ | ⟨a, _ | ⟨b, t⟩⟩ <;>
            rw [hm] at hlen
        · simp at hlen
        · simp at hlen
        · rw [hm] at hs
          refine ⟨a, b, ?_, ?_, ?_⟩
          · have : a < b := (List.sorted_cons.mp hs).1 b (by simp)
            omega
          · rw [specFindMatch_iff_mem, hm]; simp
          · rw [specFindMatch_iff_mem, hm]; simp
    · simp only [iff_false, reduceCtorEq, false_iff]
      push_neg
      constructor
      · obtain ⟨hmem, _⟩ := head_matchIdxs_least (findFontIdx_eq_some hf)
        exact ⟨i, specFindMatch_iff_mem.mpr hmem⟩
      · intro hsub
        rintro k l hkl hk hl
        rw [specFindMatch_iff_mem] at hk hl
        rcases hsome : subfamilyName with _ | s
        · exact absurd hsome hsub
        rw [hsome] at hk hl hf
        unfold findFontIdx at hf
        rcases hm : matchIdxs c.fontDatas familyName (some s) with _ | ⟨a, _ | ⟨b, t⟩⟩ <;>
            rw [hm] at hk hl hf
        · cases hk
        · rcases List.mem_singleton.mp hk with rfl
          rcases List.mem_singleton.mp hl with rfl
          exact hkl rfl
        · simp at hf
  · intro i hi
    unfold FontCache.findFont at hi
    rcases hf : findFontIdx c.fontDatas familyName subfamilyName with _ | k <;> rw [hf] at hi
    · cases hi
    · cases hi
      obtain ⟨hmem, hleast⟩ := head_matchIdxs_least (findFontIdx_eq_some hf)
      exact ⟨specFindMatch_iff_mem.mpr hmem,
        fun j hj => hleast j (specFindMatch_iff_mem.mp hj)⟩

/-- Witness for find_font_characterization at the Scenario A cache:
TestFont with subfamily Regular resolves to index 0, which matches and is
least among matches. -/
theorem find_font_characterization_witness :
    specFindMatch testFontCache.fontDatas 0 "TestFont" (some "Regular") ∧
      ∀ j, specFindMatch testFontCache.fontDatas j "TestFont" (some "Regular") → 0 ≤ j :=
  (find_font_characterization testFontCache "TestFont" (some "Regular")).2 0 rfl

theorem foldl_append_eq_flatten {α β : Type} (f : α → List β) :
    ∀ (l : List α) (acc : List β),
      l.foldl (fun a x => a ++ f x) acc = acc ++ (l.map f).flatten
  | [], acc => by simp
  | x :: t, acc => by
    simp only [List.foldl_cons, List.map_cons, List.flatten_cons,
      foldl_append_eq_flatten f t (acc ++ f x), List.append_assoc]

theorem mem_enumFilterMap {α : Type} {l : List α} {p : Nat × α → Bool} {i : Nat} :
    i ∈ (l.enum.filter p).map Prod.fst ↔ ∃ a, l[i]? = some a ∧ p (i, a) = true := by
  constructor
  · intro h
    obtain ⟨⟨j, a⟩, hmem, hj⟩ := List.mem_map.mp h
    obtain ⟨henum, hp⟩ := List.mem_filter.mp hmem
    cases hj
    exact ⟨a, List.mem_enum_iff_getElem?.mp henum, hp⟩
  · rintro ⟨a, hget, hp⟩
    exact List.mem_map.mpr
      ⟨(i, a), List.mem_filter.mpr ⟨List.mem_enum_iff_getElem?.mpr hget, hp⟩, rfl⟩

theorem searchSplitMatch_congr {f g : String → String} (fd : FontCacheData)
    (one two : String) (hone : f one = g one) (htwo : f two = g two) :
    searchSplitMatch f fd one two = searchSplitMatch g fd one two := by
  unfold searchSplitMatch searchIsMatch
  by_cases h1 : one.isEmpty <;> by_cases h2 : two.isEmpty <;>
    simp [h1, h2, hone, htwo]

theorem searchFonts_congr (c : FontCache) (term : String)
    (f g : String → String)
    (h : ∀ k, k ≤ (splitOnChar term ' ').length →
      f (String.intercalate " " ((splitOnChar term ' ').take k)) =
        g (String.intercalate " " ((splitOnChar term ' ').take k)) ∧
      f (String.intercalate " " ((splitOnChar term ' ').drop k)) =
        g (String.intercalate " " ((splitOnChar term ' ').drop k))) :
    c.searchFonts f term = c.searchFonts g term := by
  simp only [FontCache.searchFonts]
  refine congrArg dedupAdjacent (congrArg insertionSort ?_)
  apply List.foldl_ext
  intro acc k hk
  obtain ⟨h1, h2⟩ := h k (Nat.lt_succ_iff.mp (List.mem_range.mp hk))
  refine congrArg (fun x => acc ++ x) ?_
  refine congrArg (List.map Prod.fst) ?_
  exact List.filter_congr (fun p hp => searchSplitMatch_congr p.2 _ _ h1 h2)

/-- C6: search_fonts splits the query at the space character, tries every
prefix/suffix partition as (family substring, subfamily substring) and its
reverse under case-insensitive containment (Unicode to_lowercase on the
query side, modelled by the injected uniLower; ASCII lowering on the cached
side), and returns the union of matches, deduplicated and sorted; for every
uniLower the hit set is characterized by searchHit and the result list is
strictly sorted (hence without duplicates), and on a cache holding an
Arial / Regular face the queries "regular arial" and "arial regular"
return the same singleton result, given only that uniLower fixes the ASCII
lowercase fragments of those queries (as str::to_lowercase does). -/
theorem search_fonts_characterization :
    (∀ (uniLower : String → String) (c : FontCache) (term : String),
      List.Sorted (· < ·) (c.searchFonts uniLower term) ∧
        ∀ idx, idx ∈ c.searchFonts uniLower term ↔ searchHit uniLower c term idx) ∧
    ∀ uniLower : String → String,
      uniLower "" = "" →
      uniLower "regular" = "regular" →
      uniLower "arial" = "arial" →
      uniLower "regular arial" = "regular arial" →
      uniLower "arial regular" = "arial regular" →
      arialCache.searchFonts uniLower "regular arial" =
          arialCache.searchFonts uniLower "arial regular" ∧
        arialCache.searchFonts uniLower "regular arial" = [0] := by
  constructor
  · intro uniLower c term
    constructor
    · exact sorted_dedupAdjacent _ (sorted_insertionSort _)
    · intro idx
      unfold FontCache.searchFonts
      rw [mem_dedupAdjacent, mem_insertionSort,
        foldl_append_eq_flatten
          (fun i =>
            ((c.fontDatas.enum.filter (fun p => searchSplitMatch uniLower p.2
              (String.intercalate " " ((splitOnChar term ' ').take i))
              (String.intercalate " " ((splitOnChar term ' ').drop i)))).map Prod.fst))]
      rw [List.nil_append, List.mem_flatten]
      unfold searchHit
      constructor
      · rintro ⟨b, hb, hidx⟩
        obtain ⟨k, hk, rfl⟩ := List.mem_map.mp hb
        obtain ⟨fd, hget, hp⟩ := mem_enumFilterMap.mp hidx
        exact ⟨k, Nat.lt_succ_iff.mp (List.mem_range.mp hk), fd, hget, hp⟩
      · rintro ⟨k, hk, fd, hget, hp⟩
        refine ⟨_, List.mem_map.mpr ⟨k, List.mem_range.mpr (Nat.lt_succ_iff.mpr hk), rfl⟩, ?_⟩
        exact mem_enumFilterMap.mpr ⟨fd, hget, hp⟩
  · intro uniLower hE hReg hAri hRA hAR
    have hc1 : arialCache.searchFonts uniLower "regular arial" =
        arialCache.searchFonts lowStr "regular arial" := by
      apply searchFonts_congr
      intro k hk
      have hk2 : k ≤ 2 := hk
      interval_cases k
      · exact ⟨hE.trans (by decide), hRA.trans (by decide)⟩
      · exact ⟨hReg.trans (by decide), hAri.trans (by decide)⟩
      · exact ⟨hRA.trans (by decide), hE.trans (by decide)⟩
    have hc2 : arialCache.searchFonts uniLower "arial regular" =
        arialCache.searchFonts lowStr "arial regular" := by
      apply searchFonts_congr
      intro k hk
      have hk2 : k ≤ 2 := hk
      interval_cases k
      · exact ⟨hE.trans (by decide), hAR.trans (by decide)⟩
      · exact ⟨hAri.trans (by decide), hReg.trans (by decide)⟩
      · exact ⟨hAR.trans (by decide), hE.trans (by decide)⟩
    rw [hc1, hc2]
    exact ⟨by decide, by decide⟩

/-- Witness for C6: instantiating the external lowering at the ASCII
lowering (with which str::to_lowercase agrees on these ASCII strings)
discharges every fixed-point hypothesis and yields the concrete Arial
results. -/
theorem search_fonts_characterization_witness :
    arialCache.searchFonts lowStr "regular arial" =
        arialCache.searchFonts lowStr "arial regular" ∧
      arialCache.searchFonts lowStr "regular arial" = [0] :=
  search_fonts_characterization.2 lowStr (by decide) (by decide) (by decide)
    (by decide) (by decide)

theorem writeByte_self (t : Nat → Nat) (i v : Nat) : writeByte t i v i = v := by
  simp [writeByte]

theorem writeByte_ne (t : Nat → Nat) (i v j : Nat) (h : j ≠ i) : writeByte t i v j = t j := by
  simp [writeByte, h]

theorem blitCell_at0 (draw : Nat → Nat) (start rowSize width row col : Nat) (t : Nat → Nat) :
    blitCell draw start rowSize width row col t (start + row * rowSize + col * 4) =
      draw (row * width * 4 + col * 4) := by
  unfold blitCell
  rw [writeByte_ne _ _ _ _ (by omega), writeByte_ne _ _ _ _ (by omega),
    writeByte_ne _ _ _ _ (by omega), writeByte_self]

theorem blitCell_at1 (draw : Nat → Nat) (start rowSize width row col : Nat) (t : Nat → Nat) :
    blitCell draw start rowSize width row col t (start + row * rowSize + col * 4 + 1) =
      draw (row * width * 4 + col * 4 + 1) := by
  unfold blitCell
  rw [writeByte_ne _ _ _ _ (by omega), writeByte_ne _ _ _ _ (by omega), writeByte_self]

theorem blitCell_at2 (draw : Nat → Nat) (start rowSize width row col : Nat) (t : Nat → Nat) :
    blitCell draw start rowSize width row col t (start + row * rowSize + col * 4 + 2) =
      draw (row * width * 4 + col * 4 + 2) := by
  unfold blitCell
  rw [writeByte_ne _ _ _ _ (by omega), writeByte_self]

theorem blitCell_at3 (draw : Nat → Nat) (start rowSize width row col : Nat) (t : Nat → Nat) :
    blitCell draw start rowSize width row col t (start + row * rowSize + col * 4 + 3) =
      satAdd (satAdd (draw (row * width * 4 + col * 4)) (draw (row * width * 4 + col * 4 + 1)))
        (draw (row * width * 4 + col * 4 + 2)) := by
  unfold blitCell
  rw [writeByte_self]

theorem blitCell_untouched (draw : Nat → Nat) (start rowSize width row col : Nat)
    (t : Nat → Nat) (j : Nat)
    (h : j < start + row * rowSize + col * 4 ∨ start + row * rowSize + col * 4 + 4 ≤ j) :
    blitCell draw start rowSize width row col t j = t j := by
  unfold blitCell
  rw [writeByte_ne _ _ _ _ (by omega), writeByte_ne _ _ _ _ (by omega),
    writeByte_ne _ _ _ _ (by omega), writeByte_ne _ _ _ _ (by omega)]

theorem blitRowAux_get (draw : Nat → Nat) (start rowSize width row col : Nat) :
    ∀ (m : Nat) (t : Nat → Nat), col < m → m ≤ width →
      (((List.range m).foldl (fun acc c => blitCell draw start rowSize width row c acc) t)
          (start + row * rowSize + col * 4) = draw (row * width * 4 + col * 4)) ∧
      (((List.range m).foldl (fun acc c => blitCell draw start rowSize width row c acc) t)
          (start + row * rowSize + col * 4 + 1) = draw (row * width * 4 + col * 4 + 1)) ∧
      (((List.range m).foldl (fun acc c => blitCell draw start rowSize width row c acc) t)
          (start + row * rowSize + col * 4 + 2) = draw (row * width * 4 + col * 4 + 2)) ∧
      (((List.range m).foldl (fun acc c => blitCell draw start rowSize width row c acc) t)
          (start + row * rowSize + col * 4 + 3) =
        satAdd (satAdd (draw (row * width * 4 + col * 4)) (draw (row * width * 4 + col * 4 + 1)))
          (draw (row * width * 4 + col * 4 + 2))) := by
  intro m
  induction m with
  | zero => intro t h; omega
  | succ m ih =>
    intro t hcol hm
    rw [List.range_succ, List.foldl_append]
    simp only [List.foldl_cons, List.foldl_nil]
    by_cases hend : col = m
    · subst hend
      exact ⟨blitCell_at0 _ _ _ _ _ _ _, blitCell_at1 _ _ _ _ _ _ _,
        blitCell_at2 _ _ _ _ _ _ _, blitCell_at3 _ _ _ _ _ _ _⟩
    · have hlt : col < m := by omega
      obtain ⟨h0, h1, h2, h3⟩ := ih t hlt (by omega)
      refine ⟨?_, ?_, ?_, ?_⟩ <;>
        rw [blitCell_untouched _ _ _ _ _ _ _ _ (by omega)]
      · exact h0
      · exact h1
      · exact h2
      · exact h3

theorem blitRowAux_untouched (draw : Nat → Nat) (start rowSize width row : Nat) :
    ∀ (m : Nat) (t : Nat → Nat) (j : Nat), m ≤ width →
      (j < start + row * rowSize ∨ start + row * rowSize + 4 * width ≤ j) →
      ((List.range m).foldl (fun acc c => blitCell draw start rowSize width row c acc) t) j =
        t j := by
  intro m
  induction m with
  | zero => intro t j _ _; simp
  | succ m ih =>
    intro t j hm hj
    rw [List.range_succ, List.foldl_append]
    simp only [List.foldl_cons, List.foldl_nil]
    rw [blitCell_untouched _ _ _ _ _ _ _ _ (by omega)]
    exact ih t j (by omega) hj

theorem blit_get (t draw : Nat → Nat) (start rowSize width height row col : Nat)
    (hw : width * 4 ≤ rowSize) (hrow : row < height) (hcol : col < width) :
    (blit t draw start rowSize width height (start + row * rowSize + col * 4) =
      draw (row * width * 4 + col * 4)) ∧
    (blit t draw start rowSize width height (start + row * rowSize + col * 4 + 1) =
      draw (row * width * 4 + col * 4 + 1)) ∧
    (blit t draw start rowSize width height (start + row * rowSize + col * 4 + 2) =
      draw (row * width * 4 + col * 4 + 2)) ∧
    (blit t draw start rowSize width height (start + row * rowSize + col * 4 + 3) =
      satAdd (satAdd (draw (row * width * 4 + col * 4)) (draw (row * width * 4 + col * 4 + 1)))
        (draw (row * width * 4 + col * 4 + 2))) := by
  unfold blit blitRow
  have main : ∀ (m : Nat) (t0 : Nat → Nat), row < m → m ≤ height →
      (((List.range m).foldl
          (fun acc r => (List.range width).foldl
            (fun acc2 c => blitCell draw start rowSize width r c acc2) acc) t0)
        (start + row * rowSize + col * 4) = draw (row * width * 4 + col * 4)) ∧
      (((List.range m).foldl
          (fun acc r => (List.range width).foldl
            (fun acc2 c => blitCell draw start rowSize width r c acc2) acc) t0)
        (start + row * rowSize + col * 4 + 1) = draw (row * width * 4 + col * 4 + 1)) ∧
      (((List.range m).foldl
          (fun acc r => (List.range width).foldl
            (fun acc2 c => blitCell draw start rowSize width r c acc2) acc) t0)
        (start + row * rowSize + col * 4 + 2) = draw (row * width * 4 + col * 4 + 2)) ∧
      (((List.range m).foldl
          (fun acc r => (List.range width).foldl
            (fun acc2 c => blitCell draw start rowSize width r c acc2) acc) t0)
        (start + row * rowSize + col * 4 + 3) =
        satAdd (satAdd (draw (row * width * 4 + col * 4))
          (draw (row * width * 4 + col * 4 + 1))) (draw (row * width * 4 + col * 4 + 2))) := by
    intro m
    induction m with
    | zero => intro t0 h; omega
    | succ m ih =>
      intro t0 hrm hmh
      rw [List.range_succ, List.foldl_append]
      simp only [List.foldl_cons, List.foldl_nil]
      by_cases hend : row = m
      · subst hend
        exact blitRowAux_get draw start rowSize width row col width _ hcol (le_refl width)
      · have hlt : row < m := by omega
        obtain ⟨h0, h1, h2, h3⟩ := ih t0 hlt (by omega)
        have huntouched : ∀ j, (j < start + m * rowSize ∨ start + m * rowSize + 4 * width ≤ j) →
            ((List.range width).foldl
              (fun acc2 c => blitCell draw start rowSize width m c acc2)
              ((List.range m).foldl
                (fun acc r => (List.range width).foldl
                  (fun acc2 c => blitCell draw start rowSize width r c acc2) acc) t0)) j =
            ((List.range m).foldl
              (fun acc r => (List.range width).foldl
                (fun acc2 c => blitCell draw start rowSize width r c acc2) acc) t0) j :=
          fun j hj => blitRowAux_untouched draw start rowSize width m width _ j (le_refl width) hj
      -- the target indices lie strictly inside row `row`, below the start of row m
        have hidx : start + row * rowSize + col * 4 + 3 < start + m * rowSize := by
          have h1 : col * 4 + 3 < width * 4 := by omega
          have h2 : row * rowSize + rowSize ≤ m * rowSize := by
            have : (row + 1) * rowSize ≤ m * rowSize :=
              Nat.mul_le_mul_right rowSize (by omega)
            simpa [Nat.add_mul] using this
          omega
        refine ⟨?_, ?_, ?_, ?_⟩ <;> rw [huntouched _ (by omega)]
        · exact h0
        · exact h1
        · exact h2
        · exact h3
  exact main height t hrow (le_refl height)

theorem satAdd_satAdd (a b c : Nat) : satAdd (satAdd a b) c = min 255 (a + b + c) := by
  unfold satAdd
  omega

theorem allocate_spec {a : AtlasAllocator} {w h id : Nat} {r : AtlasRect}
    {a1 : AtlasAllocator} (hal : a.allocate w h = some (id, r, a1)) :
    id = a.allocs.length ∧ a1.allocs = a.allocs ++ [r] ∧ r.w = w ∧ r.h = h ∧
      r.x + w ≤ a.width := by
  unfold AtlasAllocator.allocate at hal
  split_ifs at hal with h1 h2
  · simp only [Option.some.injEq, Prod.mk.injEq] at hal
    obtain ⟨rfl, rfl, rfl⟩ := hal
    exact ⟨rfl, rfl, rfl, rfl, h1.1⟩
  · simp only [Option.some.injEq, Prod.mk.injEq] at hal
    obtain ⟨rfl, rfl, rfl⟩ := hal
    refine ⟨rfl, rfl, rfl, rfl, ?_⟩
    simpa using h2.1

theorem get_after_allocate {a : AtlasAllocator} {w h id : Nat} {r : AtlasRect}
    {a1 : AtlasAllocator} (hal : a.allocate w h = some (id, r, a1)) :
    a1.get id = some r := by
  obtain ⟨hid, hallocs, -⟩ := allocate_spec hal
  unfold AtlasAllocator.get
  rw [hallocs, hid, List.getElem?_concat_length]

/-- C4: requesting the same (face, glyph id, size, coordinates) twice from
an unseen key returns bit-identical placement and UV bounds both times,
leaves the cache untouched on the second call, and invokes the rasterizer
exactly once across the two calls: the first call increments the call
counter by one and the second call returns the very same state. -/
theorem glyph_rasterize_once (render : RenderMaskFn) (c : GlyphCache)
    (fontCacheIndex glyphId : Nat) (ppem : ℚ) (coords : List Int)
    (hfresh : alGet c.glyphMap ⟨fontCacheIndex, glyphId, (⌊ppem⌋).toNat, coords⟩ = none)
    (c1 : GlyphCache) (p1 : Placement) (uv1 : UvBounds)
    (h1 : getGlyphTextureBounds render c fontCacheIndex glyphId (some ppem) coords =
      some (c1, p1, uv1)) :
    getGlyphTextureBounds render c1 fontCacheIndex glyphId (some ppem) coords =
      some (c1, p1, uv1) ∧
    c1.rasterCount = c.rasterCount + 1 := by
  simp only [getGlyphTextureBounds] at h1
  rw [hfresh] at h1
  rcases halloc : c.atlas.allocate ((render fontCacheIndex glyphId ppem coords).1.width * 4)
      (render fontCacheIndex glyphId ppem coords).1.height with _ | ⟨allocId, rect, atlas1⟩ <;>
    rw [halloc] at h1
  · cases h1
  · simp only [Option.some.injEq, Prod.mk.injEq] at h1
    obtain ⟨h1c, h1p, h1uv⟩ := h1
    subst h1c h1p h1uv
    refine ⟨?_, rfl⟩
    simp [getGlyphTextureBounds, alGet, get_after_allocate halloc]

/-- Witness for glyph_rasterize_once: a concrete rasterizer and an empty
8 by 8 cache; the glyph is rasterized once and the repeated call returns
the identical result. -/
theorem glyph_rasterize_once_witness :
    ∃ c1 p1 uv1,
      getGlyphTextureBounds render0 gc0 0 0 (some 12) [] = some (c1, p1, uv1) ∧
      getGlyphTextureBounds render0 c1 0 0 (some 12) [] = some (c1, p1, uv1) ∧
      c1.rasterCount = gc0.rasterCount + 1 := by
  refine ⟨_, _, _, rfl, glyph_rasterize_once render0 gc0 0 0 12 [] rfl _ _ _ rfl⟩

/-- C8: on a glyph-cache miss the rasterized bitmap is written into the
atlas backing store at the allocated rectangle offset: for every pixel of
the placement, the R, G and B channels hold the subpixel coverage samples
of the draw buffer and the alpha channel the saturating sum of the three,
and the dirty flag is set. -/
theorem glyph_blit_spec (render : RenderMaskFn) (c : GlyphCache)
    (fontCacheIndex glyphId : Nat) (ppem : ℚ) (coords : List Int)
    (hfresh : alGet c.glyphMap ⟨fontCacheIndex, glyphId, (⌊ppem⌋).toNat, coords⟩ = none)
    (hwidth : c.atlas.width = c.textureRowSize)
    (c1 : GlyphCache) (p1 : Placement) (uv1 : UvBounds)
    (h1 : getGlyphTextureBounds render c fontCacheIndex glyphId (some ppem) coords =
      some (c1, p1, uv1)) :
    c1.textureDataDirty = true ∧
    ∃ allocId rect,
      alGet c1.glyphMap ⟨fontCacheIndex, glyphId, (⌊ppem⌋).toNat, coords⟩ =
        some (allocId, p1) ∧
      c1.atlas.get allocId = some rect ∧
      uv1 = resultUvBounds rect p1 ∧
      ∀ row col, row < p1.height → col < p1.width →
        (c1.texture (rect.y * c.textureRowSize + rect.x + row * c.textureRowSize + col * 4) =
          (render fontCacheIndex glyphId ppem coords).2 (row * p1.width * 4 + col * 4)) ∧
        (c1.texture
            (rect.y * c.textureRowSize + rect.x + row * c.textureRowSize + col * 4 + 1) =
          (render fontCacheIndex glyphId ppem coords).2 (row * p1.width * 4 + col * 4 + 1)) ∧
        (c1.texture
            (rect.y * c.textureRowSize + rect.x + row * c.textureRowSize + col * 4 + 2) =
          (render fontCacheIndex glyphId ppem coords).2 (row * p1.width * 4 + col * 4 + 2)) ∧
        (c1.texture
            (rect.y * c.textureRowSize + rect.x + row * c.textureRowSize + col * 4 + 3) =
          min 255
            ((render fontCacheIndex glyphId ppem coords).2 (row * p1.width * 4 + col * 4) +
              (render fontCacheIndex glyphId ppem coords).2 (row * p1.width * 4 + col * 4 + 1) +
              (render fontCacheIndex glyphId ppem coords).2
                (row * p1.width * 4 + col * 4 + 2))) := by
  simp only [getGlyphTextureBounds] at h1
  rw [hfresh] at h1
  rcases halloc : c.atlas.allocate ((render fontCacheIndex glyphId ppem coords).1.width * 4)
      (render fontCacheIndex glyphId ppem coords).1.height with _ | ⟨allocId, rect, atlas1⟩ <;>
    rw [halloc] at h1
  · cases h1
  · simp only [Option.some.injEq, Prod.mk.injEq] at h1
    obtain ⟨h1c, h1p, h1uv⟩ := h1
    subst h1c h1p h1uv
    obtain ⟨hid, hallocs, hrw, hrh, hxw⟩ := allocate_spec halloc
    refine ⟨rfl, allocId, rect, by simp [alGet], get_after_allocate halloc, rfl, ?_⟩
    intro row col hrow hcol
    have hw : (render fontCacheIndex glyphId ppem coords).1.width * 4 ≤ c.textureRowSize := by
      omega
    have hb := blit_get c.texture (render fontCacheIndex glyphId ppem coords).2
      (rect.y * c.textureRowSize + rect.x) c.textureRowSize
      (render fontCacheIndex glyphId ppem coords).1.width
      (render fontCacheIndex glyphId ppem coords).1.height row col hw hrow hcol
    obtain ⟨hb0, hb1, hb2, hb3⟩ := hb
    exact ⟨hb0, hb1, hb2, hb3.trans (satAdd_satAdd _ _ _)⟩

/-- Witness for glyph_blit_spec at the concrete 1 by 1 glyph: coverage
samples 10, 20, 30 land in R, G, B and alpha is their sum 60. -/
theorem glyph_blit_spec_witness :
    ∃ c1 p1 uv1,
      getGlyphTextureBounds render0 gc0 0 0 (some 12) [] = some (c1, p1, uv1) ∧
      (c1.textureDataDirty = true ∧
        ∃ allocId rect,
          alGet c1.glyphMap ⟨0, 0, 12, []⟩ = some (allocId, p1) ∧
          c1.atlas.get allocId = some rect ∧
          uv1 = resultUvBounds rect p1 ∧
          ∀ row col, row < p1.height → col < p1.width →
            (c1.texture (rect.y * gc0.textureRowSize + rect.x + row * gc0.textureRowSize +
                col * 4) = (render0 0 0 12 []).2 (row * p1.width * 4 + col * 4)) ∧
            (c1.texture (rect.y * gc0.textureRowSize + rect.x + row * gc0.textureRowSize +
                col * 4 + 1) = (render0 0 0 12 []).2 (row * p1.width * 4 + col * 4 + 1)) ∧
            (c1.texture (rect.y * gc0.textureRowSize + rect.x + row * gc0.textureRowSize +
                col * 4 + 2) = (render0 0 0 12 []).2 (row * p1.width * 4 + col * 4 + 2)) ∧
            (c1.texture (rect.y * gc0.textureRowSize + rect.x + row * gc0.textureRowSize +
                col * 4 + 3) =
              min 255 ((render0 0 0 12 []).2 (row * p1.width * 4 + col * 4) +
                (render0 0 0 12 []).2 (row * p1.width * 4 + col * 4 + 1) +
                (render0 0 0 12 []).2 (row * p1.width * 4 + col * 4 + 2)))) := by
  refine ⟨_, _, _, rfl, glyph_blit_spec render0 gc0 0 0 12 [] rfl rfl _ _ _ rfl⟩

/-- C10: get_glyph_texture_bounds unwraps size.ppem() before the cache-key
lookup, so a size without a pixels-per-em value panics on every call, for
every cache state, including states that already cache an entry for the
same face, glyph and coordinates. -/
theorem glyph_unscaled_size_panics (render : RenderMaskFn) (c : GlyphCache)
    (fontCacheIndex glyphId : Nat) (coords : List Int) :
    getGlyphTextureBounds render c fontCacheIndex glyphId none coords = none := rfl

theorem processFaces_cons_new {entries : List FontCacheData} {fd : FontCacheData}
    (rest : List FontCacheData)
    (h : findFontIdx entries fd.familyName fd.subfamilyName = none) :
    processFaces entries (fd :: rest) =
      (fd :: (processFaces entries rest).1, (processFaces entries rest).2.1,
        (processFaces entries rest).2.2) := by
  simp [processFaces, h]

theorem processFaces_cons_replace {entries : List FontCacheData} {fd : FontCacheData}
    {i : Nat} (rest : List FontCacheData)
    (h : findFontIdx entries fd.familyName fd.subfamilyName = some i)
    (hb : betterAtIdx entries fd i = true) :
    processFaces entries (fd :: rest) =
      ((processFaces entries rest).1, (i, fd) :: (processFaces entries rest).2.1,
        (processFaces entries rest).2.2) := by
  simp [processFaces, h, hb]

theorem processFaces_cons_skip {entries : List FontCacheData} {fd : FontCacheData}
    {i : Nat} (rest : List FontCacheData)
    (h : findFontIdx entries fd.familyName fd.subfamilyName = some i)
    (hb : betterAtIdx entries fd i = false) :
    processFaces entries (fd :: rest) =
      ((processFaces entries rest).1, (processFaces entries rest).2.1,
        i :: (processFaces entries rest).2.2) := by
  simp [processFaces, h, hb]

theorem processFaces_new_mem (entries : List FontCacheData) :
    ∀ (faces : List FontCacheData) (fd : FontCacheData),
      fd ∈ (processFaces entries faces).1 ↔
        fd ∈ faces ∧ findFontIdx entries fd.familyName fd.subfamilyName = none
  | [], fd => by simp [processFaces]
  | f0 :: rest, fd => by
    have ih := processFaces_new_mem entries rest fd
    rcases hf : findFontIdx entries f0.familyName f0.subfamilyName with _ | i
    · rw [processFaces_cons_new rest hf]
      simp only [List.mem_cons, ih]
      constructor
      · rintro (rfl | ⟨hmem, hnone⟩)
        · exact ⟨Or.inl rfl, hf⟩
        · exact ⟨Or.inr hmem, hnone⟩
      · rintro ⟨rfl | hmem, hnone⟩
        · exact Or.inl rfl
        · exact Or.inr ⟨hmem, hnone⟩
    · have step : (processFaces entries (f0 :: rest)).1 = (processFaces entries rest).1 := by
        cases hb : betterAtIdx entries f0 i
        · rw [processFaces_cons_skip rest hf hb]
        · rw [processFaces_cons_replace rest hf hb]
      rw [step, ih]
      simp only [List.mem_cons]
      constructor
      · rintro ⟨hmem, hnone⟩
        exact ⟨Or.inr hmem, hnone⟩
      · rintro ⟨rfl | hmem, hnone⟩
        · rw [hf] at hnone; cases hnone
        · exact ⟨hmem, hnone⟩

theorem processFaces_rep_mem (entries : List FontCacheData) :
    ∀ (faces : List FontCacheData) (i : Nat) (fd : FontCacheData),
      (i, fd) ∈ (processFaces entries faces).2.1 ↔
        fd ∈ faces ∧ findFontIdx entries fd.familyName fd.subfamilyName = some i ∧
          betterAtIdx entries fd i = true
  | [], i, fd => by simp [processFaces]
  | f0 :: rest, i, fd => by
    have ih := processFaces_rep_mem entries rest i fd
    rcases hf : findFontIdx entries f0.familyName f0.subfamilyName with _ | k
    · rw [processFaces_cons_new rest hf, ih]
      simp only [List.mem_cons]
      constructor
      · rintro ⟨hmem, hsome, hb⟩
        exact ⟨Or.inr hmem, hsome, hb⟩
      · rintro ⟨rfl | hmem, hsome, hb⟩
        · rw [hf] at hsome; cases hsome
        · exact ⟨hmem, hsome, hb⟩
    · cases hb : betterAtIdx entries f0 k
      · rw [processFaces_cons_skip rest hf hb, ih]
        simp only [List.mem_cons]
        constructor
        · rintro ⟨hmem, hsome, hbet⟩
          exact ⟨Or.inr hmem, hsome, hbet⟩
        · rintro ⟨rfl | hmem, hsome, hbet⟩
          · rw [hf] at hsome
            cases hsome
            rw [hb] at hbet
            cases hbet
          · exact ⟨hmem, hsome, hbet⟩
      · rw [processFaces_cons_replace rest hf hb]
        simp only [List.mem_cons, Prod.mk.injEq, ih]
        constructor
        · rintro (⟨rfl, rfl⟩ | ⟨hmem, hsome, hbet⟩)
          · exact ⟨Or.inl rfl, hf, hb⟩
          · exact ⟨Or.inr hmem, hsome, hbet⟩
        · rintro ⟨rfl | hmem, hsome, hbet⟩
          · rw [hf] at hsome
            cases hsome
            exact Or.inl ⟨rfl, rfl⟩
          · exact Or.inr ⟨hmem, hsome, hbet⟩

theorem processFaces_new_sublist (entries : List FontCacheData) :
    ∀ faces : List FontCacheData,
      List.Sublist (processFaces entries faces).1 faces
  | [] => by simp [processFaces]
  | f0 :: rest => by
    have ih := processFaces_new_sublist entries rest
    rcases hf : findFontIdx entries f0.familyName f0.subfamilyName with _ | i
    · rw [processFaces_cons_new rest hf]
      exact List.Sublist.cons₂ f0 ih
    · cases hb : betterAtIdx entries f0 i
      · rw [processFaces_cons_skip rest hf hb]
        exact List.Sublist.cons f0 ih
      · rw [processFaces_cons_replace rest hf hb]
        exact List.Sublist.cons f0 ih

theorem processFaces_all_skip {entries : List FontCacheData} :
    ∀ faces : List FontCacheData,
      (∀ fd ∈ faces, ∃ i ex, findFontIdx entries fd.familyName fd.subfamilyName = some i ∧
        entries[i]? = some ex ∧ betterFont fd ex = false) →
      (processFaces entries faces).1 = [] ∧ (processFaces entries faces).2.1 = []
  | [], _ => by simp [processFaces]
  | f0 :: rest, hall => by
    obtain ⟨i, ex, hf, hex, hbet⟩ := hall f0 (by simp)
    have hb : betterAtIdx entries f0 i = false := by
      simp [betterAtIdx, hex, hbet]
    rw [processFaces_cons_skip rest hf hb]
    exact processFaces_all_skip rest (fun fd hfd => hall fd (List.mem_cons_of_mem _ hfd))

theorem foldl_set_length {α β : Type} (v : Nat × β → α) :
    ∀ (rs : List (Nat × β)) (l : List α),
      (rs.foldl (fun l2 r => l2.set r.1 (v r)) l).length = l.length
  | [], l => rfl
  | r :: rest, l => by
    rw [List.foldl_cons, foldl_set_length v rest (l.set r.1 (v r)), List.length_set]

theorem foldl_set_get_of_ne {α β : Type} (v : Nat × β → α) :
    ∀ (rs : List (Nat × β)) (l : List α) (i : Nat), (∀ r ∈ rs, r.1 ≠ i) →
      (rs.foldl (fun l2 r => l2.set r.1 (v r)) l)[i]? = l[i]?
  | [], l, i, _ => rfl
  | r :: rest, l, i, h => by
    rw [List.foldl_cons, foldl_set_get_of_ne v rest _ i
      (fun r2 hr2 => h r2 (List.mem_cons_of_mem _ hr2)),
      List.getElem?_set_ne (h r (by simp))]

theorem foldl_set_get_of_mem {α β : Type} (v : Nat × β → α) :
    ∀ (rs : List (Nat × β)) (l : List α) (i : Nat) (r0 : Nat × β),
      rs.Pairwise (fun a b => a.1 ≠ b.1) → r0 ∈ rs → r0.1 = i → i < l.length →
      (rs.foldl (fun l2 r => l2.set r.1 (v r)) l)[i]? = some (v r0)
  | [], l, i, r0, _, hmem, _, _ => by cases hmem
  | r :: rest, l, i, r0, hpw, hmem, hr0, hlen => by
    rw [List.foldl_cons]
    rcases List.mem_cons.mp hmem with rfl | hmem2
    · rw [foldl_set_get_of_ne v rest _ i
        (fun r2 hr2 => by
          have := (List.pairwise_cons.mp hpw).1 r2 hr2
          omega),
        hr0, List.getElem?_set_self (by omega)]
    · exact foldl_set_get_of_mem v rest _ i r0 (List.pairwise_cons.mp hpw).2 hmem2 hr0
        (by rw [List.length_set]; exact hlen)

theorem foldl_set_get_cases {α β : Type} (v : Nat × β → α) :
    ∀ (rs : List (Nat × β)) (l : List α) (i : Nat) (e : α),
      (rs.foldl (fun l2 r => l2.set r.1 (v r)) l)[i]? = some e →
      l[i]? = some e ∨ ∃ r ∈ rs, r.1 = i ∧ e = v r
  | [], l, i, e, h => Or.inl h
  | r :: rest, l, i, e, h => by
    rw [List.foldl_cons] at h
    rcases foldl_set_get_cases v rest _ i e h with hbase | ⟨r2, hr2, hri, hev⟩
    · by_cases hir : r.1 = i
      · subst hir
        by_cases hlen : r.1 < l.length
        · rw [List.getElem?_set_self hlen] at hbase
          cases hbase
          exact Or.inr ⟨r, by simp, rfl, rfl⟩
        · rw [List.getElem?_eq_none (by rw [List.length_set]; omega)] at hbase
          cases hbase
      · rw [List.getElem?_set_ne hir] at hbase
        exact Or.inl hbase
    · exact Or.inr ⟨r2, List.mem_cons_of_mem _ hr2, hri, hev⟩

theorem unlinkAndReplace_some {path : Path} {c : FontCache} {r : Nat × FontCacheData}
    {c1 : FontCache} (h : unlinkAndReplace path c r = some c1) :
    c1.fontDatas = c.fontDatas.set r.1 r.2 ∧
    c1.lazyFontDatas = c.lazyFontDatas.set r.1 LazyFontCacheData.new := by
  unfold unlinkAndReplace at h
  rcases hop : (c.pathsToFontIdxs.filter
      (fun p => !(p.1 == path) && p.2.contains r.1)).map Prod.fst with _ | ⟨p0, rest⟩ <;>
    rw [hop] at h
  · cases h
  · cases h
    exact ⟨rfl, rfl⟩

theorem applyReplacements_spec (path : Path) :
    ∀ (rs : List (Nat × FontCacheData)) (c c2 : FontCache),
      applyReplacements path c rs = some c2 →
      c2.fontDatas = rs.foldl (fun l r => l.set r.1 r.2) c.fontDatas ∧
      c2.lazyFontDatas =
        rs.foldl (fun l r => l.set r.1 LazyFontCacheData.new) c.lazyFontDatas
  | [], c, c2, h => by
    cases h
    exact ⟨rfl, rfl⟩
  | r :: rest, c, c2, h => by
    unfold applyReplacements at h
    rcases hu : unlinkAndReplace path c r with _ | c1 <;> rw [hu] at h
    · cases h
    · obtain ⟨hf, hl⟩ := applyReplacements_spec path rest c1 c2 h
      obtain ⟨hf1, hl1⟩ := unlinkAndReplace_some hu
      rw [List.foldl_cons, List.foldl_cons, ← hf1, ← hl1, ← hf, ← hl]
      exact ⟨rfl, rfl⟩

/-- Disjunctive success specification of the New arm of store_raw_data:
either all faces were skipped (entry table untouched, NoNewData), or the
entry table becomes the replaced table extended by the new faces, with the
matching New result. -/
theorem storeNewData_ok_spec {c : FontCache} {path : Path} {ref hash : Nat}
    {ft : FontFileType} {datas : List RawFontCacheData} {c2 : FontCache} {res : CacheResult}
    (h : storeNewData c path ref hash ft datas = .ok c2 res) :
    ((processFaces c.fontDatas (datas.map (toFontCacheData ref))).1 = [] ∧
      (processFaces c.fontDatas (datas.map (toFontCacheData ref))).2.1 = [] ∧
      c2.fontDatas = c.fontDatas ∧ c2.lazyFontDatas = c.lazyFontDatas ∧
      res = .noNewData path
        (processFaces c.fontDatas (datas.map (toFontCacheData ref))).2.2) ∨
    (c2.fontDatas =
        ((processFaces c.fontDatas (datas.map (toFontCacheData ref))).2.1.foldl
          (fun l r => l.set r.1 r.2) c.fontDatas) ++
          (processFaces c.fontDatas (datas.map (toFontCacheData ref))).1 ∧
      c2.lazyFontDatas =
        ((processFaces c.fontDatas (datas.map (toFontCacheData ref))).2.1.foldl
          (fun l r => l.set r.1 LazyFontCacheData.new) c.lazyFontDatas) ++
          List.replicate (processFaces c.fontDatas (datas.map (toFontCacheData ref))).1.length
            LazyFontCacheData.new ∧
      res = .new path
        ((List.range (processFaces c.fontDatas (datas.map (toFontCacheData ref))).1.length).map
          (fun i => c.fontDatas.length + i))
        ((processFaces c.fontDatas (datas.map (toFontCacheData ref))).2.1.map Prod.fst)
        (processFaces c.fontDatas (datas.map (toFontCacheData ref))).2.2) := by
  unfold storeNewData at h
  by_cases hempty : ((processFaces c.fontDatas (datas.map (toFontCacheData ref))).1.isEmpty &&
      (processFaces c.fontDatas (datas.map (toFontCacheData ref))).2.1.isEmpty) = true
  · rw [if_pos hempty] at h
    cases h
    simp only [Bool.and_eq_true, List.isEmpty_iff] at hempty
    exact Or.inl ⟨hempty.1, hempty.2, rfl, rfl, rfl⟩
  · rw [if_neg hempty] at h
    dsimp only [] at h
    split at h
    · cases h
    · rename_i c1 happ
      cases h
      obtain ⟨hf, hl⟩ := applyReplacements_spec _ _ _ _ happ
      exact Or.inr ⟨by rw [hf], by rw [hl], rfl⟩

theorem goodList_pair_ne {l : List FontCacheData} (h : GoodList l) {i j : Nat}
    {a b : FontCacheData} (hij : i ≠ j) (ha : l[i]? = some a) (hb : l[j]? = some b) :
    lowPair a ≠ lowPair b := by
  obtain ⟨hia, rfl⟩ := List.getElem?_eq_some_iff.mp ha
  obtain ⟨hib, rfl⟩ := List.getElem?_eq_some_iff.mp hb
  have hpw := List.pairwise_iff_getElem.mp h.2
  rcases Nat.lt_or_ge i j with hlt | hge
  · exact hpw i j hia hib hlt
  · have hlt : j < i := by omega
    exact fun heq => hpw j i hib hia hlt heq.symm

theorem goodList_mem_eq {l : List FontCacheData} (h : GoodList l) {a b : FontCacheData}
    (ha : a ∈ l) (hb : b ∈ l) (hp : lowPair a = lowPair b) : a = b := by
  obtain ⟨i, hia⟩ := List.mem_iff_getElem?.mp ha
  obtain ⟨j, hjb⟩ := List.mem_iff_getElem?.mp hb
  by_cases hij : i = j
  · subst hij
    rw [hia] at hjb
    exact Option.some.inj hjb
  · exact absurd hp (goodList_pair_ne h hij hia hjb)

theorem matchIdxs_nil_of_good {entries : List FontCacheData} {familyName s : String}
    (hGood : GoodList entries)
    (h : findFontIdx entries familyName (some s) = none) :
    matchIdxs entries familyName (some s) = [] := by
  rcases findFontIdx_eq_none_iff.mp h with hnil | ⟨_, hlen⟩
  · exact hnil
  · exfalso
    have hs := sorted_matchIdxs entries familyName (some s)
    rcases hm : matchIdxs entries familyName (some s) with _ | ⟨a, _ | ⟨b, t⟩⟩ <;>
      rw [hm] at hlen
    · simp at hlen
    · simp at hlen
    · rw [hm] at hs
      have hab : a ≠ b := by
        have := (List.sorted_cons.mp hs).1 b (by simp)
        omega
      have hma : a ∈ matchIdxs entries familyName (some s) := by rw [hm]; simp
      have hmb : b ∈ matchIdxs entries familyName (some s) := by rw [hm]; simp
      obtain ⟨ea, hea, hma2⟩ := mem_matchIdxs.mp hma
      obtain ⟨eb, heb, hmb2⟩ := mem_matchIdxs.mp hmb
      obtain ⟨hfa, hsa⟩ := (findIsMatch_some_iff ea familyName s).mp hma2
      obtain ⟨hfb, hsb⟩ := (findIsMatch_some_iff eb familyName s).mp hmb2
      exact goodList_pair_ne hGood hab hea heb (by
        unfold lowPair
        rw [hfa, hfb, hsa, hsb])

theorem find_some_pair {entries : List FontCacheData} {fd : FontCacheData} {i : Nat}
    (hsub : fd.subfamilyName.isSome = true)
    (h : findFontIdx entries fd.familyName fd.subfamilyName = some i) :
    ∃ ex, entries[i]? = some ex ∧ lowPair ex = lowPair fd := by
  obtain ⟨s, hs⟩ := Option.isSome_iff_exists.mp hsub
  obtain ⟨hmem, -⟩ := head_matchIdxs_least (findFontIdx_eq_some h)
  obtain ⟨ex, hget, hmatch⟩ := mem_matchIdxs.mp hmem
  rw [hs] at hmatch
  obtain ⟨hfam, hsubeq⟩ := (findIsMatch_some_iff ex fd.familyName s).mp hmatch
  refine ⟨ex, hget, ?_⟩
  unfold lowPair
  rw [hfam, hsubeq, hs]
  rfl

theorem find_none_pair {entries : List FontCacheData} {fd : FontCacheData}
    (hGood : GoodList entries) (hsub : fd.subfamilyName.isSome = true)
    (h : findFontIdx entries fd.familyName fd.subfamilyName = none) :
    ∀ (j : Nat) (ex : FontCacheData), entries[j]? = some ex → lowPair ex ≠ lowPair fd := by
  obtain ⟨s, hs⟩ := Option.isSome_iff_exists.mp hsub
  rw [hs] at h
  have hnil := matchIdxs_nil_of_good hGood h
  intro j ex hget hpair
  unfold lowPair at hpair
  rw [hs] at hpair
  have hmatch : findIsMatch ex.familyName ex.subfamilyName fd.familyName (some s) = true := by
    refine (findIsMatch_some_iff ex fd.familyName s).mpr ?_
    have h1 := congrArg Prod.fst hpair
    have h2 := congrArg Prod.snd hpair
    exact ⟨h1, by simpa using h2⟩
  have : j ∈ matchIdxs entries fd.familyName (some s) :=
    mem_matchIdxs.mpr ⟨ex, hget, hmatch⟩
  rw [hnil] at this
  cases this

theorem processFaces_rep_pairwise {entries : List FontCacheData}
    (hGood : GoodList entries) :
    ∀ faces : List FontCacheData, GoodList faces →
      (processFaces entries faces).2.1.Pairwise (fun a b => a.1 ≠ b.1)
  | [], _ => by simp [processFaces]
  | f0 :: rest, hFaces => by
    have hsub0 : f0.subfamilyName.isSome = true := hFaces.1 f0 (by simp)
    have hrestGood : GoodList rest :=
      ⟨fun fd hfd => hFaces.1 fd (List.mem_cons_of_mem _ hfd),
        (List.pairwise_cons.mp hFaces.2).2⟩
    have hhead := (List.pairwise_cons.mp hFaces.2).1
    have ih := processFaces_rep_pairwise hGood rest hrestGood
    rcases hf : findFontIdx entries f0.familyName f0.subfamilyName with _ | i
    · rw [processFaces_cons_new rest hf]
      exact ih
    · cases hb : betterAtIdx entries f0 i
      · rw [processFaces_cons_skip rest hf hb]
        exact ih
      · rw [processFaces_cons_replace rest hf hb]
        refine List.pairwise_cons.mpr ⟨?_, ih⟩
        rintro ⟨j, g⟩ hg heq
        obtain ⟨hgmem, hgfind, -⟩ := (processFaces_rep_mem entries rest j g).mp hg
        obtain ⟨ex0, hex0, hp0⟩ := find_some_pair hsub0 hf
        have hsubg : g.subfamilyName.isSome = true :=
          hFaces.1 g (List.mem_cons_of_mem _ hgmem)
        obtain ⟨exg, hexg, hpg⟩ := find_some_pair hsubg hgfind
        have hji : i = j := by simpa using heq
        subst hji
        rw [hex0] at hexg
        cases Option.some.inj hexg
        exact hhead g hgmem (hp0.symm.trans hpg)

/-- Preservation of GoodList across a successful New commit whose faces are
themselves GoodList: replacements keep the (family, subfamily) pair of the
slot they overwrite, and appended faces have fresh pairs. -/
theorem goodStep {c c2 : FontCache} {path : Path} {ref hash : Nat} {ft : FontFileType}
    {datas : List RawFontCacheData} {res : CacheResult}
    (hGood : GoodList c.fontDatas)
    (hFaces : GoodList (datas.map (toFontCacheData ref)))
    (h : storeNewData c path ref hash ft datas = .ok c2 res) :
    GoodList c2.fontDatas := by
  rcases storeNewData_ok_spec h with ⟨-, -, hfd, -, -⟩ | ⟨hfd, -, -⟩
  · rw [hfd]; exact hGood
  · set faces := datas.map (toFontCacheData ref) with hfaces
    set rs := (processFaces c.fontDatas faces).2.1 with hrs
    set news := (processFaces c.fontDatas faces).1 with hnews
    set applied := rs.foldl (fun l r => l.set r.1 r.2) c.fontDatas with happlied
    have pairPres : ∀ (i : Nat) (e : FontCacheData), applied[i]? = some e →
        ∃ epre, c.fontDatas[i]? = some epre ∧ lowPair e = lowPair epre := by
      intro i e he
      rcases foldl_set_get_cases _ rs _ i e he with hbase | ⟨r, hrmem, hri, hev⟩
      · exact ⟨e, hbase, rfl⟩
      · obtain ⟨hfmem, hfind, -⟩ := (processFaces_rep_mem c.fontDatas faces r.1 r.2).mp hrmem
        have hsub := hFaces.1 r.2 hfmem
        obtain ⟨ex, hex, hpex⟩ := find_some_pair hsub hfind
        rw [hri] at hex
        exact ⟨ex, hex, by rw [hev]; exact hpex.symm⟩
    have memApplied_some : ∀ fd ∈ applied, fd.subfamilyName.isSome = true := by
      intro fd hfd2
      obtain ⟨i, hi⟩ := List.mem_iff_getElem?.mp hfd2
      rcases foldl_set_get_cases _ rs _ i fd hi with hbase | ⟨r, hrmem, -, hev⟩
      · exact hGood.1 fd (mem_of_getElemEq hbase)
      · obtain ⟨hfmem, -, -⟩ := (processFaces_rep_mem c.fontDatas faces r.1 r.2).mp hrmem
        rw [hev]
        exact hFaces.1 r.2 hfmem
    have hnewsSub : List.Sublist news faces := processFaces_new_sublist _ _
    refine ⟨?_, ?_⟩
    · rw [hfd]
      intro fd hfd2
      rcases List.mem_append.mp hfd2 with hA | hN
      · exact memApplied_some fd hA
      · exact hFaces.1 fd (hnewsSub.mem hN)
    · rw [hfd]
      refine List.pairwise_iff_getElem.mpr ?_
      intro i j hi hj hij
      obtain ⟨hei?, hej?⟩ :
          (applied ++ news)[i]? = some (applied ++ news)[i] ∧
          (applied ++ news)[j]? = some (applied ++ news)[j] :=
        ⟨List.getElem?_eq_getElem hi, List.getElem?_eq_getElem hj⟩
      set ei := (applied ++ news)[i]
      set ej := (applied ++ news)[j]
      rw [List.getElem?_append] at hei? hej?
      by_cases hiL : i < applied.length
      · rw [if_pos hiL] at hei?
        obtain ⟨eprei, hprei, hpairi⟩ := pairPres i ei hei?
        by_cases hjL : j < applied.length
        · rw [if_pos hjL] at hej?
          obtain ⟨eprej, hprej, hpairj⟩ := pairPres j ej hej?
          rw [hpairi, hpairj]
          exact goodList_pair_ne hGood (by omega) hprei hprej
        · rw [if_neg hjL] at hej?
          have hjmem : ej ∈ news := mem_of_getElemEq hej?
          obtain ⟨hjfaces, hjfind⟩ := (processFaces_new_mem c.fontDatas faces ej).mp hjmem
          have hjsub : ej.subfamilyName.isSome = true := hFaces.1 ej hjfaces
          have hne := find_none_pair hGood hjsub hjfind i eprei hprei
          rw [hpairi]
          exact hne
      · rw [if_neg hiL] at hei?
        have hjL : ¬ j < applied.length := by omega
        rw [if_neg hjL] at hej?
        have hnewsPair : news.Pairwise (fun a b => lowPair a ≠ lowPair b) :=
          hFaces.2.sublist hnewsSub
        obtain ⟨hib, hiv⟩ := List.getElem?_eq_some_iff.mp hei?
        obtain ⟨hjb, hjv⟩ := List.getElem?_eq_some_iff.mp hej?
        rw [← hiv, ← hjv]
        exact List.pairwise_iff_getElem.mp hnewsPair _ _ hib hjb (by omega)

/-- The duplicate-resolution outcome of a successful New commit: a face
that matched an existing entry leaves in that slot its own data when it
ranks strictly better, and the existing data otherwise. -/
theorem storeNewData_ranked {c c2 : FontCache} {path : Path} {ref hash : Nat}
    {ft : FontFileType} {datas : List RawFontCacheData} {res : CacheResult}
    (hGood : GoodList c.fontDatas)
    (hFaces : GoodList (datas.map (toFontCacheData ref)))
    (h : storeNewData c path ref hash ft datas = .ok c2 res) :
    ∀ fd i ex, fd ∈ datas.map (toFontCacheData ref) →
      findFontIdx c.fontDatas fd.familyName fd.subfamilyName = some i →
      c.fontDatas[i]? = some ex →
      c2.fontDatas[i]? = some (if betterFont fd ex then fd else ex) := by
  intro fd i ex hfd hfind hex
  have hbAt : betterAtIdx c.fontDatas fd i = betterFont fd ex := by
    simp [betterAtIdx, hex]
  have hnoOther : betterFont fd ex = false → ∀ r ∈ (processFaces c.fontDatas
      (datas.map (toFontCacheData ref))).2.1, r.1 ≠ i := by
    intro hb r hrmem hri
    obtain ⟨hgmem, hgfind, hgbet⟩ :=
      (processFaces_rep_mem c.fontDatas (datas.map (toFontCacheData ref)) r.1 r.2).mp hrmem
    rw [hri] at hgfind hgbet
    have hsubg := hFaces.1 r.2 hgmem
    obtain ⟨exg, hexg, hpg⟩ := find_some_pair hsubg hgfind
    rw [hex] at hexg
    cases Option.some.inj hexg
    have hsubf := hFaces.1 fd hfd
    obtain ⟨exf, hexf, hpf⟩ := find_some_pair hsubf hfind
    rw [hex] at hexf
    cases Option.some.inj hexf
    have hgf : r.2 = fd := goodList_mem_eq hFaces hgmem hfd (hpg.symm.trans hpf)
    rw [hgf, hbAt, hb] at hgbet
    cases hgbet
  have hiL : i < c.fontDatas.length := (List.getElem?_eq_some_iff.mp hex).1
  rcases storeNewData_ok_spec h with ⟨-, hrsnil, hfd2, -, -⟩ | ⟨hfd2, -, -⟩
  · cases hb : betterFont fd ex
    · rw [if_neg (by simp), hfd2]
      exact hex
    · exfalso
      have : ((i, fd) ∈ (processFaces c.fontDatas
          (datas.map (toFontCacheData ref))).2.1) :=
        (processFaces_rep_mem _ _ i fd).mpr ⟨hfd, hfind, by rw [hbAt, hb]⟩
      rw [hrsnil] at this
      cases this
  · rw [hfd2]
    have hLen : ((processFaces c.fontDatas (datas.map (toFontCacheData ref))).2.1.foldl
        (fun l r => l.set r.1 r.2) c.fontDatas).length = c.fontDatas.length :=
      foldl_set_length _ _ _
    rw [List.getElem?_append]
    rw [if_pos (by omega)]
    cases hb : betterFont fd ex
    · rw [if_neg (by simp)]
      rw [foldl_set_get_of_ne _ _ _ _ (hnoOther hb)]
      exact hex
    · rw [if_pos rfl]
      exact foldl_set_get_of_mem (fun r => r.2) _ _ i (i, fd)
        (processFaces_rep_pairwise hGood _ hFaces)
        ((processFaces_rep_mem _ _ i fd).mpr ⟨hfd, hfind, by rw [hbAt, hb]⟩) rfl hiL

/-- When every face of the file matches an existing entry and none ranks
better, the commit takes the NoNewData path: it records only path and hash
linkage and leaves the entry table and the lazy tables unchanged. -/
theorem storeNewData_all_skipped {c : FontCache} {path : Path} {ref hash : Nat}
    {ft : FontFileType} {datas : List RawFontCacheData}
    (hall : ∀ fd ∈ datas.map (toFontCacheData ref), ∃ i ex,
      findFontIdx c.fontDatas fd.familyName fd.subfamilyName = some i ∧
      c.fontDatas[i]? = some ex ∧ betterFont fd ex = false) :
    ∃ c2 res, storeNewData c path ref hash ft datas = .ok c2 res ∧
      c2.fontDatas = c.fontDatas ∧ c2.lazyFontDatas = c.lazyFontDatas := by
  obtain ⟨hnew, hrep⟩ := processFaces_all_skip (datas.map (toFontCacheData ref)) hall
  have hcond : ((processFaces c.fontDatas (datas.map (toFontCacheData ref))).1.isEmpty &&
      (processFaces c.fontDatas (datas.map (toFontCacheData ref))).2.1.isEmpty) = true := by
    rw [hnew, hrep]
    rfl
  refine ⟨{ c with
      paths := c.paths ++ [path],
      rawDataHashesToPaths := alInsert c.rawDataHashesToPaths hash path,
      fontFileTypes := c.fontFileTypes ++ [ft],
      pathsToFontIdxs := alInsert c.pathsToFontIdxs path [],
      pathsToDataRefs := alInsert c.pathsToDataRefs path ref },
    .noNewData path (processFaces c.fontDatas (datas.map (toFontCacheData ref))).2.2,
    ?_, rfl, rfl⟩
  unfold storeNewData
  rw [if_pos hcond]

/-- Every cache state reachable by committed loads of well-formed files
has a well-formed entry table. -/
theorem reachGood_goodList : ∀ c : FontCache, ReachGood c → GoodList c.fontDatas := by
  intro c h
  induction h with
  | init => exact ⟨by simp [FontCache.new], by simp [FontCache.new]⟩
  | @step c0 c1 input r hr hg hs ih =>
    cases input with
    | error e => cases hs
    | ok rcr =>
      cases rcr with
      | alreadyCached p =>
        simp only [storeRawData] at hs
        rcases hal : alGet c0.pathsToFontIdxs p with _ | idxs <;> rw [hal] at hs
        · cases hs
        · cases hs
          exact ih
      | new path ref hash ft datas => exact goodStep ih hg hs

/-- C3 (amended): provided every loaded face carries a subfamily name and
no single file holds two faces with the same case-insensitive
(family, subfamily) pair, at most one cache entry exists per pair at every
reachable state; when a loaded face matches an existing entry the commit
keeps exactly one of the two in that slot, the new face exactly when it
ranks better (more variation axes, then more features, then more named
instances, then higher revision; on a full tie the first-seen entry is
kept); and a load all of whose faces match existing entries without
ranking better changes no entry. -/
theorem duplicate_resolution_invariant :
    (∀ c : FontCache, ReachGood c → GoodList c.fontDatas) ∧
    (∀ (c c2 : FontCache) (path : Path) (ref hash : Nat) (ft : FontFileType)
        (datas : List RawFontCacheData) (res : CacheResult),
      GoodList c.fontDatas → GoodList (datas.map (toFontCacheData ref)) →
      storeRawData c (.ok (.new path ref hash ft datas)) = .ok c2 res →
      ∀ fd i ex, fd ∈ datas.map (toFontCacheData ref) →
        findFontIdx c.fontDatas fd.familyName fd.subfamilyName = some i →
        c.fontDatas[i]? = some ex →
        c2.fontDatas[i]? = some (if betterFont fd ex then fd else ex)) ∧
    (∀ (c : FontCache) (path : Path) (ref hash : Nat) (ft : FontFileType)
        (datas : List RawFontCacheData),
      (∀ fd ∈ datas.map (toFontCacheData ref), ∃ i ex,
        findFontIdx c.fontDatas fd.familyName fd.subfamilyName = some i ∧
        c.fontDatas[i]? = some ex ∧ betterFont fd ex = false) →
      ∃ c2 res, storeRawData c (.ok (.new path ref hash ft datas)) = .ok c2 res ∧
        c2.fontDatas = c.fontDatas) := by
  refine ⟨reachGood_goodList, ?_, ?_⟩
  · intro c c2 path ref hash ft datas res hGood hFaces hs
    exact storeNewData_ranked hGood hFaces hs
  · intro c path ref hash ft datas hall
    obtain ⟨c2, res, hok, hfd, -⟩ :=
      @storeNewData_all_skipped c path ref hash ft datas hall
    exact ⟨c2, res, hok, hfd⟩

/-- Witness for duplicate_resolution_invariant: committing the better
Alpha face over the cached one replaces slot 0 with the better data. -/
theorem duplicate_resolution_invariant_witness :
    ∃ c2 res,
      storeRawData c7State1 (.ok (.new "q2" 21 21 .single [exFaceABetter])) = .ok c2 res ∧
      c2.fontDatas[0]? =
        some (if betterFont (toFontCacheData 21 exFaceABetter) (toFontCacheData 1 exFaceA)
          then toFontCacheData 21 exFaceABetter else toFontCacheData 1 exFaceA) := by
  refine ⟨_, _, rfl, ?_⟩
  exact duplicate_resolution_invariant.2.1 c7State1 _ "q2" 21 21 .single [exFaceABetter] _
    (by decide) (by decide) rfl (toFontCacheData 21 exFaceABetter) 0 (toFontCacheData 1 exFaceA)
    (by decide) (by decide) (by decide)

/-- C3 counterexample: a single collection file with two faces sharing the
identical (family, subfamily) pair commits both as separate entries, so
two entries with the same pair coexist, refuting the claimed at-most-one
invariant as stated. -/
theorem duplicate_pair_counterexample :
    c3DupState.fontDatas[0]? = some (toFontCacheData 13 exFaceA) ∧
    c3DupState.fontDatas[1]? = some (toFontCacheData 13 exFaceA) ∧
    ¬ GoodList c3DupState.fontDatas := by
  refine ⟨by decide, by decide, ?_⟩
  intro h
  have h2 := h.2
  rw [show c3DupState.fontDatas = [toFontCacheData 13 exFaceA, toFontCacheData 13 exFaceA]
    from by decide] at h2
  rcases List.pairwise_cons.mp h2 with ⟨hh, -⟩
  exact hh _ (by simp) rfl

theorem loadStoreLoop_cons_ok {c c2 : FontCache} {x : Except FontError RawCacheResult}
    {r : CacheResult} (rest : List (Except FontError RawCacheResult))
    (h : storeRawData c x = .ok c2 r) :
    loadStoreLoop c (x :: rest) =
      ((loadStoreLoop c2 rest).1, r :: (loadStoreLoop c2 rest).2.1,
        (loadStoreLoop c2 rest).2.2) := by
  simp [loadStoreLoop, h]

theorem loadStoreLoop_cons_err {c : FontCache} {x : Except FontError RawCacheResult}
    {e : FontError} (rest : List (Except FontError RawCacheResult))
    (h : storeRawData c x = .err e) :
    loadStoreLoop c (x :: rest) = (c, [], some (.err e)) := by
  simp [loadStoreLoop, h]

theorem loadStoreLoop_append :
    ∀ (xs : List (Except FontError RawCacheResult)) (c c1 : FontCache)
      (rs : List CacheResult) (ys : List (Except FontError RawCacheResult)),
      loadStoreLoop c xs = (c1, rs, none) →
      loadStoreLoop c (xs ++ ys) =
        ((loadStoreLoop c1 ys).1, rs ++ (loadStoreLoop c1 ys).2.1,
          (loadStoreLoop c1 ys).2.2)
  | [], c, c1, rs, ys, h => by
    cases h
    simp [loadStoreLoop]
  | x :: xs, c, c1, rs, ys, h => by
    cases hst : storeRawData c x with
    | err e =>
      rw [loadStoreLoop_cons_err xs hst] at h
      cases h
    | panic =>
      rw [show loadStoreLoop c (x :: xs) = (c, [], some .panic) from by
        simp [loadStoreLoop, hst]] at h
      cases h
    | ok c2 r =>
      rw [loadStoreLoop_cons_ok xs hst] at h
      rcases hxs : loadStoreLoop c2 xs with ⟨zc, zrs, zfail⟩
      rw [hxs] at h
      cases h
      rw [List.cons_append, loadStoreLoop_cons_ok (xs ++ ys) hst,
        loadStoreLoop_append xs c2 zc zrs ys hxs]
      simp

/-- C1 (amended): on success, load_multiple_font_files returns the number
of distinct indices contributed across all per-path results, where a New
result contributes its newly cached and replaced indices, an AlreadyCached
result the indices currently linked to the original path of that content,
and a NoNewData result the existing indices of its skipped faces. -/
theorem load_multiple_count (c : FontCache) (inputs : List (Path × FileOutcome))
    (c1 : FontCache) (results : List CacheResult)
    (h : loadStoreLoop c (inputs.map fun pf => loadRawData c.rawDataHashesToPaths pf.1 pf.2)
      = (c1, results, none)) :
    c.loadMultipleFontFiles inputs =
      (c1, .ok ((results.map cacheResultIdxs).flatten.toFinset.card)) := by
  simp only [FontCache.loadMultipleFontFiles]
  rw [h, ← length_sortDedup]

/-- Witness for load_multiple_count: a second call that re-loads
byte-identical content at a new path. -/
theorem load_multiple_count_witness :
    ∃ c1 results,
      loadStoreLoop c1StateA ([c1InputQ].map fun pf =>
        loadRawData c1StateA.rawDataHashesToPaths pf.1 pf.2) = (c1, results, none) ∧
      c1StateA.loadMultipleFontFiles [c1InputQ] =
        (c1, .ok ((results.map cacheResultIdxs).flatten.toFinset.card)) := by
  refine ⟨_, _, rfl, load_multiple_count _ _ _ _ rfl⟩

/-- C1 counterexample: loading byte-identical content at a new path in a
later call returns the count 1 although zero indices were newly cached or
replaced during that call, refuting the claim that the returned value
counts the newly-cached-or-replaced indices of the call. -/
theorem load_multiple_count_counterexample :
    (c1StateA.loadMultipleFontFiles [c1InputQ]).2 = .ok 1 ∧
    newlyReplacedIdxs (loadStoreLoop c1StateA ([c1InputQ].map fun pf =>
      loadRawData c1StateA.rawDataHashesToPaths pf.1 pf.2)).2.1 = [] := by
  constructor
  · decide
  · decide

/-- C2 (amended): a failing path contributes no cache entries, but it does
abort the sequential commit of load_multiple_font_files: when every path
before the failing one commits, the call returns the state holding exactly
those earlier commits together with the error of the failing path, and the
paths after it are never committed; the single-path load_font_file reports
the error with the cache unchanged. -/
theorem load_error_isolation (c : FontCache) (pre : List (Path × FileOutcome))
    (path : Path) (file : FileOutcome) (post : List (Path × FileOutcome))
    (n : Nat) (e : FontError)
    (hpre : (c.loadMultipleFontFiles pre).2 = .ok n)
    (hbad : loadRawData c.rawDataHashesToPaths path file = .error e) :
    c.loadMultipleFontFiles (pre ++ (path, file) :: post) =
      ((c.loadMultipleFontFiles pre).1, .err e) ∧
    c.loadFontFile (path, file) = (c, .err e) := by
  constructor
  · simp only [FontCache.loadMultipleFontFiles] at hpre ⊢
    rcases hls : loadStoreLoop c
        (pre.map fun pf => loadRawData c.rawDataHashesToPaths pf.1 pf.2) with ⟨c1, rs, fail⟩
    rw [hls] at hpre ⊢
    cases fail with
    | some f => cases f <;> simp at hpre
    | none =>
      have hcons : loadStoreLoop c1
          ((loadRawData c.rawDataHashesToPaths path file) ::
            (post.map fun pf => loadRawData c.rawDataHashesToPaths pf.1 pf.2)) =
          (c1, [], some (.err e)) :=
        loadStoreLoop_cons_err _ (by rw [hbad]; rfl)
      have hbig := loadStoreLoop_append _ c c1 rs
        ((loadRawData c.rawDataHashesToPaths path file) ::
          (post.map fun pf => loadRawData c.rawDataHashesToPaths pf.1 pf.2)) hls
      rw [hcons] at hbig
      rw [List.map_append, List.map_cons, hbig]
  · simp only [FontCache.loadFontFile]
    rw [hbad]
    rfl

/-- Witness for load_error_isolation: a good file, a bad-extension file
and a second good file; the call returns the state after the first commit
and the extension error. -/
theorem load_error_isolation_witness :
    FontCache.new.loadMultipleFontFiles c2Inputs =
      ((FontCache.new.loadMultipleFontFiles [("g1.ttf",
        .content 11 .single (.ok [exFaceA]))]).1, .err (.fileExtension "bad.xyz" "xyz")) ∧
    FontCache.new.loadFontFile ("bad.xyz", .badFile (.fileExtension "bad.xyz" "xyz")) =
      (FontCache.new, .err (.fileExtension "bad.xyz" "xyz")) :=
  load_error_isolation FontCache.new
    [("g1.ttf", .content 11 .single (.ok [exFaceA]))]
    "bad.xyz" (.badFile (.fileExtension "bad.xyz" "xyz"))
    [("g2.ttf", .content 12 .single (.ok [exFaceB]))] 1
    (.fileExtension "bad.xyz" "xyz") (by decide) rfl

/-- C2 counterexample: with inputs good, failing, good, the second good
path is neither committed nor reported — the call ends with the error and
only the face of the first path in the cache — refuting the claim that a
failure does not affect the results of the other paths. -/
theorem load_error_isolation_counterexample :
    ((FontCache.new.loadMultipleFontFiles c2Inputs).1.fontDatas.map
      (fun fd => fd.familyName)) = ["Alpha"] ∧
    (FontCache.new.loadMultipleFontFiles c2Inputs).2 =
      .err (.fileExtension "bad.xyz" "xyz") := by
  constructor
  · decide
  · decide

/-- C7: the code evaluated at the failing input. Path p is loaded once,
then loaded again after its content changed on disk: the commit overwrites
the index set of p, leaving index 0 linked to no path at all and
falsifying the sanity condition the code itself debug-asserts (total
linked indices equals total entries). -/
theorem path_reload_orphans_index :
    c7State2.fontDatas.length = 2 ∧
    (∀ pr ∈ c7State2.pathsToFontIdxs, 0 ∉ pr.2) ∧
    ¬ pathLinkSanity c7State2 := by
  refine ⟨by decide, by decide, ?_⟩
  unfold pathLinkSanity
  decide

/-- C9 (amended): each lazily derived field is populated at most once — a
populated field is returned as-is, with the cache state unchanged — and it
is retained by every commit that does not replace its entry; a commit that
replaces the entry resets the lazy data (see the counterexample). -/
theorem lazy_data_once_retained :
    (∀ (c : FontCache) (i : Nat) (lz : LazyFontCacheData) (v : Nat × Nat),
      c.lazyFontDatas[i]? = some lz → lz.extFontRef = some v →
      (c.fontDatas[i]?).isSome = true → extFontRefOp c i = some (c, v)) ∧
    (∀ (c : FontCache) (i : Nat) (lz : LazyFontCacheData) (v : Nat × Nat),
      c.lazyFontDatas[i]? = some lz → lz.shaperData = some v →
      shaperDataOp c i = some (c, v)) ∧
    (∀ (c : FontCache) (i : Nat) (lz : LazyFontCacheData) (v : Nat × Nat),
      c.lazyFontDatas[i]? = some lz → lz.outlineGlyphsRef = some v →
      outlineGlyphCollectionOp c i = some (c, v)) ∧
    (∀ (c c2 : FontCache) (input : Except FontError RawCacheResult) (res : CacheResult)
        (i : Nat),
      storeRawData c input = .ok c2 res →
      (match res with
       | .new _ _ replaced _ => i ∉ replaced
       | _ => True) →
      i < c.lazyFontDatas.length →
      c2.lazyFontDatas[i]? = c.lazyFontDatas[i]?) := by
  refine ⟨?_, ?_, ?_, ?_⟩
  · intro c i lz v hlz hv hfd
    obtain ⟨fd, hfd2⟩ := Option.isSome_iff_exists.mp hfd
    unfold extFontRefOp
    rw [hfd2, hlz]
    simp [hv]
  · intro c i lz v hlz hv
    unfold shaperDataOp
    rw [hlz]
    simp [hv]
  · intro c i lz v hlz hv
    unfold outlineGlyphCollectionOp
    rw [hlz]
    simp [hv]
  · intro c c2 input res i hs hres hlen
    cases input with
    | error e => cases hs
    | ok rcr =>
      cases rcr with
      | alreadyCached p =>
        simp only [storeRawData] at hs
        rcases hal : alGet c.pathsToFontIdxs p with _ | idxs <;> rw [hal] at hs
        · cases hs
        · cases hs
          rfl
      | new path ref hash ft datas =>
        rcases storeNewData_ok_spec hs with ⟨-, -, -, hlz, -⟩ | ⟨-, hlz, hres2⟩
        · rw [hlz]
        · rw [hres2] at hres
          have hne : ∀ r ∈ (processFaces c.fontDatas
              (datas.map (toFontCacheData ref))).2.1, r.1 ≠ i := by
            intro r hr hri
            exact hres (List.mem_map.mpr ⟨r, hr, hri⟩)
          rw [hlz, List.getElem?_append, if_pos (by
            rw [foldl_set_length]
            exact hlen)]
          exact foldl_set_get_of_ne _ _ _ _ hne

/-- Witness for lazy_data_once_retained: the populated parsed-face handle
of entry 0 is returned unchanged on a repeated demand. -/
theorem lazy_data_once_retained_witness :
    extFontRefOp c9Populated 0 = some (c9Populated, (1, 0)) :=
  lazy_data_once_retained.1 c9Populated 0 ⟨some (1, 0), none, none⟩ (1, 0)
    (by decide) rfl (by decide)

/-- C9 counterexample: entry 0 has its lazy data populated, then a load of
a better duplicate replaces the entry and resets the lazy data to empty —
refuting the claim that populated lazy data is never discarded by a cache
operation. -/
theorem lazy_reset_on_replace_counterexample :
    c9Populated.lazyFontDatas[0]? = some ⟨some (1, 0), none, none⟩ ∧
    c9Replaced.lazyFontDatas[0]? = some ⟨none, none, none⟩ := by
  constructor
  · decide
  · decide

end SpaceshipFont
